import Mathlib

/-!
Verification of the dfloat repository: a shallow embedding in Lean 4 of the
two numeric components, `biguint` (include/biguint.h(.hpp), a fixed-width
multi-word unsigned integer) and `dfloat` (include/dfloat.h(.hpp), a decimal
floating point number with sign, 64-bit mantissa and base-10 exponent).

Machine integers are modelled as `Nat` with explicit `% 2^w` wherever the
C++ performs an operation whose result may exceed the word width; loops are
modelled as recursive functions whose fuel or measure mirrors the loop
counter, with genuinely unbounded loops (the mantissa renormalization loop
of `dfloat::operator*`) taking explicit fuel and returning `Option`.
-/

namespace Xu

/-- Word width constant from biguint.h (`WORD_SIZE = 32`). -/
def WORD_SIZE : Nat := 32

/-- Modulus of one 32-bit word. -/
def U32 : Nat := 2 ^ 32

/-- Modulus of a 64-bit value (the dfloat mantissa type `mant_t`). -/
def U64 : Nat := 2 ^ 64

/-- Constant `SCALE` from dfloat.h: 10^17. -/
def SCALE : Nat := 100000000000000000

/-- Constant `SCALE_POW` from dfloat.h. -/
def SCALE_POW : Int := 17

/-- Constant `BASE` from dfloat.h. -/
def BASE : Nat := 10

/-- Constant `MANT_CAP = BASE * SCALE` from dfloat.h. -/
def MANT_CAP : Nat := BASE * SCALE

/-- Constant `MAX_POW` from dfloat.h. -/
def MAX_POW : Int := 100

/-- Constant `MIN_POW` from dfloat.h. -/
def MIN_POW : Int := -100

/-- The `Sign` enumeration from dfloat.h (`NEG`, `ZERO`, `POS`, `_NAN_`). -/
inductive Sign
  | neg
  | zero
  | pos
  | nan
deriving DecidableEq, Repr

/-- The `ComparisonResult` enumeration from dfloat.h
(`LESS`, `EQUAL`, `MORE`, `_NAN_`). -/
inductive CompRes
  | less
  | equal
  | more
  | nanr
deriving DecidableEq, Repr

/-- The `dfloat` value: sign tag, mantissa (`mant_t`, a uint64 modelled as
`Nat`), and base-10 exponent (`pow_t`, modelled as `Int`).  When the sign is
`zero` or `nan` the C++ leaves `mant`/`pow` uninitialized; the embedding uses
0 for those unspecified fields. -/
structure dfloat where
  sign : Sign
  mant : Nat
  pow : Int
deriving DecidableEq, Repr

/-- Canonical NaN value (`dfloat(Sign::_NAN_, 0, 0)`). -/
def nanD : dfloat := ⟨Sign.nan, 0, 0⟩

/-- Canonical zero value (`dfloat(Sign::ZERO, 0, 0)`). -/
def zeroD : dfloat := ⟨Sign.zero, 0, 0⟩

/-- Exponent-alignment loop of `dfloat::operator+`:
`while (a_pow < b_pow) { ++a_pow; a_mant /= BASE; }` run for a fixed number
of iterations (the exponent difference). -/
def alignLoop : Nat → Nat → Nat
  | 0, m => m
  | k + 1, m => alignLoop k (m / BASE)

/-- Two's-complement style uint64 subtraction `a - b` (the C++ subtracts
unsigned 64-bit mantissas; on every path actually executed the minuend is
the larger, which the invariant proofs establish). -/
def sub64 (a b : Nat) : Nat := (a + (U64 - b)) % U64

/-- Renormalization loop of the different-sign branch of `dfloat::operator+`:
`while (res.mant < SCALE) { if (res.pow <= MIN_POW) break; else { res.mant *= BASE; --res.pow; } }`.
The fuel equals `(p - MIN_POW).toNat`, the exact number of decrements the
loop can still make before `pow` reaches `MIN_POW`. -/
def renormDenormAux : Nat → Nat → Int → Nat × Int
  | 0, m, p => (m, p)
  | k + 1, m, p => if m < SCALE then renormDenormAux k (m * BASE) (p - 1) else (m, p)

/-- Wrapper supplying the exact fuel for `renormDenormAux`. -/
def renormDenorm (m : Nat) (p : Int) : Nat × Int :=
  renormDenormAux (p - MIN_POW).toNat m p

/-- Upward renormalization loop of `dfloat::operator*` (and the trailing
loop of the integer constructors and of `parse`):
`while (new_mant < SCALE) { new_mant *= BASE; --new_pow; }`.
This loop has no exit besides the guard, so it is modelled with explicit
fuel; `none` means the fuel ran out with the guard still true (for a zero
mantissa no amount of fuel terminates the loop). -/
def normUpAux (fuel : Nat) (m : Nat) (p : Int) : Option (Nat × Int) :=
  if m < SCALE then
    match fuel with
    | 0 => none
    | k + 1 => normUpAux k (m * BASE) (p - 1)
  else some (m, p)

/-- Downward renormalization loop of `dfloat::operator/` and the integer
constructors: `while (new_mant >= MANT_CAP) { new_mant /= BASE; ++new_pow; }`.
Terminates because the mantissa strictly decreases. -/
def normDownLoop (m : Nat) (p : Int) : Nat × Int :=
  if h : MANT_CAP ≤ m then normDownLoop (m / BASE) (p + 1) else (m, p)
termination_by m
decreasing_by
  exact Nat.div_lt_self (Nat.lt_of_lt_of_le (by norm_num [MANT_CAP, BASE, SCALE]) h)
    (by norm_num [BASE])

/-- Underflow loop shared by `dfloat::operator*` and `dfloat::operator/`:
`while (new_pow < MIN_POW) { new_mant /= 10; ++new_pow; if (new_mant == 0) return ZERO; }`.
The fuel equals `(MIN_POW - p).toNat`, the exact iteration count; `none`
models the in-loop `return ZERO`. -/
def underflowAux : Nat → Nat → Int → Option (Nat × Int)
  | 0, m, p => some (m, p)
  | k + 1, m, p =>
    let m' := m / BASE
    if m' = 0 then none else underflowAux k m' (p + 1)

/-- Wrapper supplying the exact fuel for `underflowAux`. -/
def underflowLoop (m : Nat) (p : Int) : Option (Nat × Int) :=
  underflowAux (MIN_POW - p).toNat m p

/-- Magnitude comparison `dfloat::_compareMagnitudeTo`: exponent first,
then mantissa. -/
def dfloat.compareMagnitudeTo (a b : dfloat) : CompRes :=
  if b.pow < a.pow then CompRes.more
  else if a.pow < b.pow then CompRes.less
  else if b.mant < a.mant then CompRes.more
  else if a.mant < b.mant then CompRes.less
  else CompRes.equal

/-- Three-way comparison `dfloat::_comparedTo`: NaN is unordered; otherwise
signs order first, and equal nonzero signs defer to magnitude comparison
(flipped when both are negative). -/
def dfloat.comparedTo (a b : dfloat) : CompRes :=
  if a.sign = Sign.nan ∨ b.sign = Sign.nan then CompRes.nanr
  else
    match a.sign, b.sign with
    | Sign.neg, Sign.zero => CompRes.less
    | Sign.neg, Sign.pos => CompRes.less
    | Sign.zero, Sign.neg => CompRes.more
    | Sign.zero, Sign.zero => CompRes.equal
    | Sign.zero, Sign.pos => CompRes.less
    | Sign.pos, Sign.neg => CompRes.more
    | Sign.pos, Sign.zero => CompRes.more
    | Sign.pos, Sign.pos => a.compareMagnitudeTo b
    | Sign.neg, Sign.neg =>
      match a.compareMagnitudeTo b with
      | CompRes.more => CompRes.less
      | CompRes.less => CompRes.more
      | r => r
    | _, _ => CompRes.nanr

/-- Operator `==` of dfloat. -/
def dfloat.eqB (a b : dfloat) : Bool := decide (a.comparedTo b = CompRes.equal)

/-- Operator `!=` of dfloat (`r != EQUAL and r != _NAN_`). -/
def dfloat.neB (a b : dfloat) : Bool :=
  decide (a.comparedTo b ≠ CompRes.equal ∧ a.comparedTo b ≠ CompRes.nanr)

/-- Operator `>` of dfloat. -/
def dfloat.gtB (a b : dfloat) : Bool := decide (a.comparedTo b = CompRes.more)

/-- Operator `<` of dfloat. -/
def dfloat.ltB (a b : dfloat) : Bool := decide (a.comparedTo b = CompRes.less)

/-- Operator `>=` of dfloat (`r == EQUAL or r == MORE`). -/
def dfloat.geB (a b : dfloat) : Bool :=
  decide (a.comparedTo b = CompRes.equal ∨ a.comparedTo b = CompRes.more)

/-- Operator `<=` of dfloat (`r == EQUAL or r == LESS`). -/
def dfloat.leB (a b : dfloat) : Bool :=
  decide (a.comparedTo b = CompRes.equal ∨ a.comparedTo b = CompRes.less)

/-- Static method `dfloat::isfinite`: false exactly when the sign is NaN. -/
def dfloat.isfinite (d : dfloat) : Bool := decide (d.sign ≠ Sign.nan)

/-- Unary minus `dfloat::operator-()`. -/
def dfloat.neg (d : dfloat) : dfloat :=
  match d.sign with
  | Sign.neg => ⟨Sign.pos, d.mant, d.pow⟩
  | Sign.zero => ⟨Sign.zero, 0, 0⟩
  | Sign.pos => ⟨Sign.neg, d.mant, d.pow⟩
  | Sign.nan => ⟨Sign.nan, 0, 0⟩

/-- Binary addition `dfloat::operator+`.  NaN and zero edge cases first;
same signs align exponents, add mantissas and renormalize one step (NaN on
exponent overflow); different signs subtract the smaller magnitude from the
larger (zero if equal) and renormalize downward, allowing a denormal result
when `pow` has saturated at `MIN_POW`. -/
def dfloat.add (a b : dfloat) : dfloat :=
  if a.sign = Sign.nan ∨ b.sign = Sign.nan then nanD
  else if a.sign = Sign.zero then b
  else if b.sign = Sign.zero then a
  else if a.sign = b.sign then
    let a_mant := alignLoop (b.pow - a.pow).toNat a.mant
    let b_mant := alignLoop (a.pow - b.pow).toNat b.mant
    let res_pow : Int := a.pow + ((b.pow - a.pow).toNat : Int)
    let res_mant := (a_mant + b_mant) % U64
    if MANT_CAP ≤ res_mant then
      if MAX_POW ≤ res_pow then ⟨Sign.nan, res_mant / BASE, res_pow⟩
      else ⟨a.sign, res_mant / BASE, res_pow + 1⟩
    else ⟨a.sign, res_mant, res_pow⟩
  else
    match a.compareMagnitudeTo b with
    | CompRes.equal => zeroD
    | cr =>
      let parts :=
        if cr = CompRes.more then (a.sign, a.mant, a.pow, b.mant, b.pow)
        else (b.sign, b.mant, b.pow, a.mant, a.pow)
      let rsign := parts.1
      let a_mant := parts.2.1
      let a_pow := parts.2.2.1
      let b_mant := alignLoop (a_pow - parts.2.2.2.2).toNat parts.2.2.2.1
      let st := renormDenorm (sub64 a_mant b_mant) a_pow
      ⟨rsign, st.1, st.2⟩

/-- Binary subtraction `dfloat::operator-`: `a + (-b)`. -/
def dfloat.sub (a b : dfloat) : dfloat := a.add b.neg

/-- Binary multiplication `dfloat::operator*`, with explicit fuel for the
upward renormalization loop (which the C++ runs without bound and which
does not terminate when the widened product underflows to a zero mantissa);
`none` models divergence of that loop. -/
def dfloat.mulF (fuel : Nat) (a b : dfloat) : Option dfloat :=
  if a.sign = Sign.nan ∨ b.sign = Sign.nan then some nanD
  else if a.sign = Sign.zero ∨ b.sign = Sign.zero then some zeroD
  else
    let rsign := if a.sign = b.sign then Sign.pos else Sign.neg
    let new_pow : Int := a.pow + b.pow
    let new_mant := a.mant * b.mant / SCALE
    let adj :=
      if MANT_CAP ≤ new_mant then (new_mant / BASE, new_pow + 1) else (new_mant, new_pow)
    match normUpAux fuel adj.1 adj.2 with
    | none => none
    | some (m2, p2) =>
      if MAX_POW < p2 then some ⟨Sign.nan, 0, 0⟩
      else
        match underflowLoop m2 p2 with
        | none => some ⟨Sign.zero, 0, 0⟩
        | some (m3, p3) => some ⟨rsign, m3 % U64, p3⟩

/-- Binary division `dfloat::operator/`.  NaN operands and a zero divisor
give NaN (no error channel), a zero dividend gives zero; otherwise the
quotient `mant * SCALE / b.mant` is renormalized — note the downward loop is
a `while` but the upward adjustment is a single `if`, unlike multiply. -/
def dfloat.div (a b : dfloat) : dfloat :=
  if a.sign = Sign.nan ∨ b.sign = Sign.nan then nanD
  else if b.sign = Sign.zero then nanD
  else if a.sign = Sign.zero then zeroD
  else
    let rsign := if a.sign = b.sign then Sign.pos else Sign.neg
    let new_pow : Int := a.pow - b.pow
    let new_mant := a.mant * SCALE / b.mant
    let st := normDownLoop new_mant new_pow
    let adj := if st.1 < SCALE then (st.1 * BASE, st.2 - 1) else st
    if MAX_POW < adj.2 then ⟨Sign.nan, 0, 0⟩
    else
      match underflowLoop adj.1 adj.2 with
      | none => ⟨Sign.zero, 0, 0⟩
      | some (m3, p3) => ⟨rsign, m3 % U64, p3⟩

/-- Representation invariant of a finite nonzero dfloat, as stated by the
spec: the exponent lies in `[MIN_POW, MAX_POW]`, the mantissa is positive
and below `MANT_CAP`, and it may fall below `SCALE` only when the exponent
has saturated at `MIN_POW` (denormal). -/
def Inv (d : dfloat) : Prop :=
  d.sign = Sign.pos ∨ d.sign = Sign.neg →
    MIN_POW ≤ d.pow ∧ d.pow ≤ MAX_POW ∧ 1 ≤ d.mant ∧ d.mant < MANT_CAP ∧
      (SCALE ≤ d.mant ∨ d.pow = MIN_POW)

instance (d : dfloat) : Decidable (Inv d) := by
  unfold Inv
  infer_instance

/-- Parser states of the goto state machine of `dfloat::parse` (the begin
state is handled by `parseChars`; zero/fail/done are terminal actions). -/
inductive PState
  | psign
  | leadz
  | ze1
  | zes
  | ze2
  | whole
  | frac1
  | frac2
  | e1
  | es
  | e2
deriving DecidableEq, Repr

/-- Accumulator of `dfloat::parse`: the local variables
`sign, mant, pow, exp_sign, exp_pow`. -/
structure PAcc where
  sign : Sign
  mant : Nat
  pow : Int
  exp_sign : Int
  exp_pow : Int
deriving DecidableEq, Repr

/-- Initial accumulator of `parse`. -/
def initAcc : PAcc := ⟨Sign.pos, 0, SCALE_POW, 1, 0⟩

/-- Digit test: the ten cases `'0'..'9'` of the parser's switch tables. -/
def isDigitC (c : Char) : Bool := decide (48 ≤ c.toNat ∧ c.toNat ≤ 57)

/-- Digit value `c - '0'`. -/
def digitVal (c : Char) : Nat := c.toNat - 48

/-- Mantissa-normalization loop shared by the `e1` and `done` blocks of
`parse`: `while (mant < SCALE) { if (pow <= MIN_POW) goto fail; mant *= BASE; --pow; }`.
The fuel `(p - MIN_POW).toNat` is exactly the number of decrements possible
before the in-loop failure fires, so the fuel-0 case with the guard still
true coincides with that failure. -/
def parseNormAux : Nat → Nat → Int → Option (Nat × Int)
  | 0, m, p => if m < SCALE then none else some (m, p)
  | k + 1, m, p =>
    if m < SCALE then
      if p ≤ MIN_POW then none
      else parseNormAux k (m * BASE) (p - 1)
    else some (m, p)

/-- Wrapper supplying the exact fuel for `parseNormAux`. -/
def parseNorm (m : Nat) (p : Int) : Option (Nat × Int) :=
  parseNormAux (p - MIN_POW).toNat m p

/-- Per-state entry action of the parser, using the character that caused
the transition into the state; `none` is the goto fail. -/
def pAction : PState → PAcc → Char → Option PAcc
  | PState.psign, acc, c =>
    some { acc with sign := if c = '+' then Sign.pos else Sign.neg }
  | PState.whole, acc, c =>
    if SCALE ≤ acc.mant then
      if MAX_POW ≤ acc.pow then none
      else some { acc with pow := acc.pow + 1 }
    else some { acc with mant := acc.mant * BASE + digitVal c }
  | PState.frac2, acc, c =>
    if SCALE ≤ acc.mant then some acc
    else
      if acc.pow ≤ MIN_POW then none
      else some { acc with pow := acc.pow - 1, mant := acc.mant * BASE + digitVal c }
  | PState.e1, acc, _ =>
    match parseNorm acc.mant acc.pow with
    | none => none
    | some (m, p) => some { acc with mant := m, pow := p }
  | PState.es, acc, c =>
    some { acc with exp_sign := if c = '+' then 1 else -1 }
  | PState.e2, acc, c =>
    if 0 < acc.exp_sign then
      if MAX_POW / (BASE : Int) < acc.exp_pow then none
      else
        let ep := acc.exp_pow * (BASE : Int)
        if MAX_POW - ep < (digitVal c : Int) then none
        else some { acc with exp_pow := ep + (digitVal c : Int) }
    else
      if acc.exp_pow < MIN_POW / (BASE : Int) then none
      else
        let ep := acc.exp_pow * (BASE : Int)
        if (digitVal c : Int) < MIN_POW - ep then none
        else some { acc with exp_pow := ep - (digitVal c : Int) }
  | _, acc, _ => some acc

/-- Per-state transition table of the parser on the next character; `none`
is the goto fail. -/
def pNext : PState → Char → Option PState
  | PState.psign, c =>
    if c = '0' then some PState.leadz
    else if isDigitC c then some PState.whole
    else none
  | PState.leadz, c =>
    if c = '0' then some PState.leadz
    else if isDigitC c then some PState.whole
    else if c = 'e' ∨ c = 'E' then some PState.ze1
    else if c = '.' then some PState.frac1
    else none
  | PState.ze1, c =>
    if c = '+' ∨ c = '-' then some PState.zes
    else if isDigitC c then some PState.ze2
    else none
  | PState.zes, c => if isDigitC c then some PState.ze2 else none
  | PState.ze2, c => if isDigitC c then some PState.ze2 else none
  | PState.whole, c =>
    if isDigitC c then some PState.whole
    else if c = 'e' ∨ c = 'E' then some PState.e1
    else if c = '.' then some PState.frac1
    else none
  | PState.frac1, c => if isDigitC c then some PState.frac2 else none
  | PState.frac2, c =>
    if isDigitC c then some PState.frac2
    else if c = 'e' ∨ c = 'E' then some PState.e1
    else none
  | PState.e1, c =>
    if c = '+' ∨ c = '-' then some PState.es
    else if isDigitC c then some PState.e2
    else none
  | PState.es, c => if isDigitC c then some PState.e2 else none
  | PState.e2, c => if isDigitC c then some PState.e2 else none

/-- The done block of `parse`: renormalize the mantissa, bounds-check the
combined exponent and build the result. -/
def pDone (acc : PAcc) : dfloat :=
  match parseNorm acc.mant acc.pow with
  | none => nanD
  | some (m, p) =>
    if MAX_POW < p + acc.exp_pow ∨ p + acc.exp_pow < MIN_POW then nanD
    else ⟨acc.sign, m, p + acc.exp_pow⟩

/-- End-of-input behaviour per state: the states that goto zero return
ZERO, the states that goto done run the done block, everything else fails
to NaN. -/
def pEnd : PState → PAcc → dfloat
  | PState.leadz, _ => zeroD
  | PState.ze2, _ => zeroD
  | PState.whole, acc => pDone acc
  | PState.frac2, acc => pDone acc
  | PState.e2, acc => pDone acc
  | _, _ => nanD

/-- Main dispatch loop of `parse`: perform the entry action of the current
state, then finish at end of input or transition on the next character. -/
def parseRun : PState → PAcc → Char → List Char → dfloat
  | st, acc, c, rest =>
    match pAction st acc c with
    | none => nanD
    | some acc' =>
      match rest with
      | [] => pEnd st acc'
      | c' :: r' =>
        match pNext st c' with
        | none => nanD
        | some st' => parseRun st' acc' c' r'

/-- The begin state of `parse`: dispatch on the first character (empty
input fails). -/
def parseChars : List Char → dfloat
  | [] => nanD
  | c :: r =>
    let st0 :=
      if c = '+' ∨ c = '-' then some PState.psign
      else if c = '0' then some PState.leadz
      else if isDigitC c then some PState.whole
      else none
    match st0 with
    | none => nanD
    | some st => parseRun st initAcc c r

/-- Static method `dfloat::parse`. -/
def dfloat.parse (s : String) : dfloat := parseChars s.data

/-- Constructor `dfloat(T value)` for unsigned integral types: zero maps to
ZERO, otherwise the mantissa is normalized by the `while (mant < SCALE)`
loop (17 iterations always suffice for a nonzero value, and the loop guard
is checked before fuel is consumed) followed by the
`while (mant >= MANT_CAP)` loop. -/
def ofNatD (value : Nat) : Option dfloat :=
  if value = 0 then some zeroD
  else
    match normUpAux 17 value SCALE_POW with
    | none => none
    | some (m, p) =>
      let r := normDownLoop m p
      some ⟨Sign.pos, r.1, r.2⟩

/-- Constructor `dfloat(T value)` for signed integral types: the sign is
taken from the value and the magnitude is normalized exactly as in the
unsigned constructor. -/
def ofIntD (value : Int) : Option dfloat :=
  if value = 0 then some zeroD
  else
    let s := if 0 < value then Sign.pos else Sign.neg
    match normUpAux 17 value.natAbs SCALE_POW with
    | none => none
    | some (m, p) =>
      let r := normDownLoop m p
      some ⟨s, r.1, r.2⟩

/-- Digit character `'0' + n`. -/
def digitChar (n : Nat) : Char := Char.ofNat (48 + n)

/-- Mantissa-printing loop of the scientific branch of `print_to`: while
the running mantissa is nonzero, emit its leading digit (quotient by
SCALE), with the decimal point after the first digit, then continue with
the remainder shifted one decimal digit left; also returns the final digit
counter `place`.  One step takes any `mant < 2^64` to a multiple of ten
below `MANT_CAP`, after which at most 18 steps reach zero, so fuel 24 never
runs out on values of the mantissa type. -/
def sciMantLoop : Nat → Nat → Nat → List Char × Nat
  | _, 0, place => ([], place)
  | 0, _, place => ([], place)
  | fuel + 1, m, place =>
    let quo := m / SCALE
    let rem := m % SCALE
    let next := sciMantLoop fuel (rem * BASE) (place + 1)
    (digitChar quo :: (if place = 0 then '.' :: next.1 else next.1), next.2)

/-- Exponent-digit buffer of `print_to` (POW_BUF_SIZE = 3): decimal digits
of the (positive) exponent magnitude filled from the rear of a 3-slot
buffer and printed with the empty slots skipped; for values below 1000
this is the plain decimal representation. -/
def powDigits : Nat → Nat → List Char
  | _, 0 => []
  | 0, _ => []
  | fuel + 1, v => powDigits fuel (v / BASE) ++ [digitChar (v % BASE)]

/-- Mantissa-printing loop of the decimal branch of `print_to`; also
returns the final decimal-position counter used for trailing zeros. -/
def decMantLoop : Nat → Nat → Int → List Char × Int
  | _, 0, p => ([], p)
  | 0, _, p => ([], p)
  | fuel + 1, m, p =>
    let quo := m / SCALE
    let rem := m % SCALE
    let next := decMantLoop fuel (rem * BASE) (p - 1)
    (digitChar quo :: (if p = 0 ∧ rem ≠ 0 then '.' :: next.1 else next.1), next.2)

/-- Zero padding emitted by the decimal branch. -/
def zeroChars (n : Nat) : List Char := List.replicate n '0'

/-- Method `dfloat::print_to`: NaN prints as "nan", zero as "0" (or
"0.0e0" when scientific notation is forced), and otherwise scientific
notation is used when |pow| reaches the threshold, decimal placement
otherwise.  In the decimal branch the leading-zero loop advances the
position counter to -1 before the digit loop runs, which the padding
count `(-1 - pow).toNat` mirrors. -/
def dfloat.printTo (d : dfloat) (exp_thresh : Int) : List Char :=
  if d.sign = Sign.nan then ['n', 'a', 'n']
  else if d.sign = Sign.zero then
    if 0 < exp_thresh then ['0'] else ['0', '.', '0', 'e', '0']
  else
    (if d.sign = Sign.neg then ['-'] else []) ++
    (if exp_thresh ≤ d.pow ∨ d.pow ≤ -exp_thresh then
      let ml := sciMantLoop 24 d.mant 0
      ml.1 ++ (if ml.2 = 1 then ['0'] else []) ++ ['e'] ++
        (if d.pow = 0 then ['0']
         else (if d.pow < 0 then ['-'] else []) ++ powDigits 3 d.pow.natAbs)
    else
      let pads := (-1 - d.pow).toNat
      let ml := decMantLoop 24 d.mant (d.pow + pads)
      (if d.pow < 0 then ['0', '.'] else []) ++ zeroChars pads ++
        ml.1 ++ zeroChars (ml.2 + 1).toNat)

/-- Static method `dfloat::to_string` with its exponent threshold
argument (default 10 in the source). -/
def dfloat.to_string (d : dfloat) (exp_thresh : Int) : String :=
  String.mk (d.printTo exp_thresh)

/-- All characters are digits: suffix language of states ze2 and e2. -/
def allDigits : List Char → Bool
  | [] => true
  | c :: r => isDigitC c && allDigits r

/-- Suffix language of states es and zes: one digit then digits. -/
def sufEsign : List Char → Bool
  | [] => false
  | c :: r => isDigitC c && allDigits r

/-- Suffix language of states e1 and ze1: an optional sign then at least one digit. -/
def sufExpStart : List Char → Bool
  | [] => false
  | c :: r => if c = '+' ∨ c = '-' then sufEsign r else isDigitC c && allDigits r

/-- Suffix language of state frac2: digits, then optionally an exponent part. -/
def sufAfterFrac : List Char → Bool
  | [] => true
  | c :: r =>
    if isDigitC c then sufAfterFrac r
    else if c = 'e' ∨ c = 'E' then sufExpStart r
    else false

/-- Suffix language of state frac1: at least one digit then the frac2 language. -/
def sufFrac1 : List Char → Bool
  | [] => false
  | c :: r => isDigitC c && sufAfterFrac r

/-- Suffix language of states whole and leadz: digits, then optionally a
fraction (a decimal point followed by at least one digit), then optionally
an exponent part. -/
def sufAfterWhole : List Char → Bool
  | [] => true
  | c :: r =>
    if isDigitC c then sufAfterWhole r
    else if c = '.' then sufFrac1 r
    else if c = 'e' ∨ c = 'E' then sufExpStart r
    else false

/-- Suffix language of state psign: at least one digit then the whole-state language. -/
def sufNum : List Char → Bool
  | [] => false
  | c :: r => isDigitC c && sufAfterWhole r

/-- The surface grammar accepted by the parser, written from the spec's
words to compare the parser against: an optional sign, then digits, then
an optional fraction (a decimal point and at least one digit), then an
optional exponent (e/E, an optional sign, and at least one digit). -/
def grammarB : List Char → Bool
  | [] => false
  | c :: r => if c = '+' ∨ c = '-' then sufNum r else sufNum (c :: r)

/-- The suffix language of each parser state. -/
def sufOf : PState → List Char → Bool
  | PState.psign => sufNum
  | PState.leadz => sufAfterWhole
  | PState.whole => sufAfterWhole
  | PState.frac1 => sufFrac1
  | PState.frac2 => sufAfterFrac
  | PState.ze1 => sufExpStart
  | PState.e1 => sufExpStart
  | PState.zes => sufEsign
  | PState.es => sufEsign
  | PState.ze2 => allDigits
  | PState.e2 => allDigits

/-- Error conditions of biguint: `std::runtime_error` on divide by zero and
`std::out_of_range` on a word index past the width. -/
inductive BigErr
  | divideByZero
  | outOfRange
deriving DecidableEq, Repr

/-- Value of a biguint word array (little-endian, base 2^32):
`sum word[i] * 2^(32*i)`. -/
def wordsVal : List Nat → Nat
  | [] => 0
  | a :: as => a + U32 * wordsVal as

/-- Word validity: every entry of the array is a 32-bit value. -/
def wvalid (l : List Nat) : Prop := ∀ x ∈ l, x < U32

/-- Helper `addCarry` from biguint.hpp: add three words with uint32
wraparound, incrementing the carry each time a truncated sum is smaller
than one of its terms; returns (carry, out). -/
def addCarry (a b c : Nat) : Nat × Nat :=
  let res1 := (a + b) % U32
  let carry1 := if res1 < b then 1 else 0
  let res2 := (res1 + c) % U32
  let carry2 := if res2 < c then carry1 + 1 else carry1
  (carry2, res2)

/-- Word-wise ripple-carry loop of `biguint::operator+`; the final carry
out of the top word is dropped (modulo arithmetic). -/
def baddAux : Nat → List Nat → List Nat → List Nat
  | _, [], _ => []
  | _, _ :: _, [] => []
  | c, a :: as, b :: bs =>
    let s := addCarry a b c
    s.2 :: baddAux s.1 as bs

/-- Operator `biguint::operator+`. -/
def badd (a b : List Nat) : List Nat := baddAux 0 a b

/-- Operator `biguint::operator~`: word-wise bitwise NOT, which on a valid
32-bit word equals `2^32 - 1 - x`. -/
def bnot (l : List Nat) : List Nat := l.map (fun x => (U32 - 1) - x)

/-- Constructor `biguint<w>(uint32_t value)`: low word set, others zero. -/
def ofU32 (w v : Nat) : List Nat := v :: List.replicate (w - 1) 0

/-- Operator `biguint::operator-`: `(*this) + (~other + 1u)`, two's
complement subtraction. -/
def bsub (a b : List Nat) : List Nat := badd a (badd (bnot b) (ofU32 b.length 1))

/-- Comparison loop of `biguint::_comparedTo` on most-significant-first
word lists. -/
def bcompAux : List Nat → List Nat → Int
  | a :: as, b :: bs =>
    if b < a then 1
    else if a < b then -1
    else bcompAux as bs
  | _, _ => 0

/-- Method `biguint::_comparedTo`: compare from the most significant word
down. -/
def bcomp (a b : List Nat) : Int := bcompAux a.reverse b.reverse

/-- Method `biguint::_isZero`. -/
def bisZero (l : List Nat) : Bool := l.all (fun x => x = 0)

/-- Method `biguint::_leftShiftOneBit` in little-endian functional form:
each word becomes its own double (truncated to 32 bits) plus the top bit of
its lower neighbour (the OR of a one-bit carry into an even word). -/
def bshl1Aux : Nat → List Nat → List Nat
  | _, [] => []
  | carry, x :: xs => Nat.lor ((x * 2) % U32) carry :: bshl1Aux (x / 2 ^ 31) xs

/-- Method `biguint::_leftShiftOneBit`. -/
def bshl1 (l : List Nat) : List Nat := bshl1Aux 0 l

/-- Method `biguint::_leftShiftOneWord`: words move up one index and the
lowest becomes zero. -/
def bshlW (l : List Nat) : List Nat :=
  match l with
  | [] => []
  | _ :: _ => 0 :: l.dropLast

/-- The `while (shift >= WORD_SIZE)` loop of `biguint::operator<<`, run
exactly `shift / 32` times. -/
def bshlWords (l : List Nat) : Nat → List Nat
  | 0 => l
  | k + 1 => bshlWords (bshlW l) k

/-- The `while (shift > 0)` loop of `biguint::operator<<`, run exactly
`shift % 32` times. -/
def bshlBits (l : List Nat) : Nat → List Nat
  | 0 => l
  | k + 1 => bshlBits (bshl1 l) k

/-- Operator `biguint::operator<<`: whole words first, then single bits. -/
def bshl (l : List Nat) (shift : Nat) : List Nat :=
  bshlBits (bshlWords l (shift / 32)) (shift % 32)

/-- Method `biguint::_rightShiftOneBit` exactly as defined in biguint.hpp
(lines 437-445).  Note the body is `words[i] = words[i + 1]` for every
index followed by zeroing the top word: despite its name it moves whole
WORDS, i.e. it shifts right by 32 bits, unlike `_leftShiftOneBit` which
shifts by one bit. -/
def brsh1 (l : List Nat) : List Nat :=
  match l with
  | [] => []
  | _ :: t => t ++ [0]

/-- Modelled from the spec: `_rightShiftOneWord` is declared in biguint.h
(line 150) but no definition exists anywhere in the source; the spec says
the word loop of `operator>>` shifts whole words, so the missing helper is
modelled as the one-word right shift. -/
def brshW (l : List Nat) : List Nat :=
  match l with
  | [] => []
  | _ :: t => t ++ [0]

/-- The `while (shift >= WORD_SIZE)` loop of `biguint::operator>>`, run
exactly `shift / 32` times. -/
def bshrWords (l : List Nat) : Nat → List Nat
  | 0 => l
  | k + 1 => bshrWords (brshW l) k

/-- The `while (shift > 0)` loop of `biguint::operator>>`, run exactly
`shift % 32` times; each iteration calls `_rightShiftOneBit`, whose body
shifts one whole word. -/
def bshrBits (l : List Nat) : Nat → List Nat
  | 0 => l
  | k + 1 => bshrBits (brsh1 l) k

/-- Operator `biguint::operator>>`: whole words first, then the per-"bit"
loop. -/
def bshr (l : List Nat) (shift : Nat) : List Nat :=
  bshrBits (bshrWords l (shift / 32)) (shift % 32)

/-- Method `biguint::_getBit`: `(words[at / 32] >> (at % 32)) & 1`. -/
def getBit (l : List Nat) (at_ : Nat) : Nat :=
  l.getD (at_ / 32) 0 / 2 ^ (at_ % 32) % 2

/-- Method `biguint::_setBit`: mask out the bit (AND with the complement of
`1 << (at % 32)`) and OR the bit back in when setting. -/
def setBit (l : List Nat) (at_ : Nat) (tov : Nat) : List Nat :=
  let wi := at_ / 32
  let bi := at_ % 32
  let msk := 2 ^ bi
  let x := l.getD wi 0
  let x' := if tov = 0 then Nat.land x ((U32 - 1) - msk)
            else Nat.lor (Nat.land x ((U32 - 1) - msk)) msk
  l.set wi x'

/-- Operator `biguint::operator|`: word-wise OR. -/
def bor (a b : List Nat) : List Nat := List.zipWith Nat.lor a b

/-- Helper `multiplyParts` from biguint.hpp: 64-bit product of two words
split into (upper, lower) 32-bit halves. -/
def multiplyParts (a b : Nat) : Nat × Nat := (a * b / U32, a * b % U32)

/-- The trailing carry-propagation loop of `biguint::operator*`:
`while (++k < w and carry > 0) carry = addCarry(res[k], 0, carry, res[k])`,
with fuel equal to `res.length - k`, the exact number of words left. -/
def mulCarryAux : Nat → List Nat → Nat → Nat → List Nat
  | 0, res, _, _ => res
  | fuel + 1, res, k, carry =>
    if 0 < carry then
      mulCarryAux fuel (res.set k (addCarry (res.getD k 0) 0 carry).2) (k + 1)
        (addCarry (res.getD k 0) 0 carry).1
    else res

/-- Wrapper supplying the exact fuel for `mulCarryAux`. -/
def mulCarryLoop (res : List Nat) (k carry : Nat) : List Nat :=
  mulCarryAux (res.length - k) res k carry

/-- One partial-product accumulation of `biguint::operator*`: add the low
half at word index k, fold the high half into the carry, and propagate. -/
def mulAddAt (res : List Nat) (k a b : Nat) : List Nat :=
  let p := multiplyParts a b
  let s := addCarry (res.getD k 0) p.2 0
  mulCarryLoop (res.set k s.2) (k + 1) (p.1 + s.1)

/-- Inner loop of `biguint::operator*` over the words of the second
operand (k is the running index sum `i + j`); zero words and out-of-range
target indices are skipped. -/
def bmulInnerAux (a_i : Nat) : Nat → List Nat → List Nat → List Nat
  | _, [], res => res
  | k, bj :: rest, res =>
    let res' := if bj = 0 then res
                else if k < res.length then mulAddAt res k a_i bj else res
    bmulInnerAux a_i (k + 1) rest res'

/-- Outer loop of `biguint::operator*` over the words of the first
operand; zero words are skipped. -/
def bmulOuterAux : Nat → List Nat → List Nat → List Nat → List Nat
  | _, [], _, res => res
  | i, ai :: rest, bs, res =>
    let res' := if ai = 0 then res else bmulInnerAux ai i bs res
    bmulOuterAux (i + 1) rest bs res'

/-- Operator `biguint::operator*`: schoolbook word multiplication into a
zero-initialized result. -/
def bmul (a b : List Nat) : List Nat :=
  bmulOuterAux 0 a b (List.replicate a.length 0)

/-- Operator `biguint::operator==` (via `_comparedTo`). -/
def beqB (a b : List Nat) : Bool := decide (bcomp a b = 0)

/-- Operator `biguint::operator<=` (via `_comparedTo`). -/
def bleB (a b : List Nat) : Bool := decide (bcomp a b ≤ 0)

/-- The bit-by-bit long-division loop of `biguint::operator/`: at each
position compare the divisor against the running dividend, set the
quotient bit and subtract on success, then pull in the next dividend bit
through `(dividend << 1) | _getBit(at - 1)`. -/
def bdivGo (a other : List Nat) : List Nat → List Nat → Nat → List Nat
  | res, dividend, 0 =>
    (if bleB other dividend then (setBit res 0 1, bsub dividend other)
     else (setBit res 0 0, dividend)).1
  | res, dividend, k + 1 =>
    let step :=
      if bleB other dividend then (setBit res (k + 1) 1, bsub dividend other)
      else (setBit res (k + 1) 0, dividend)
    bdivGo a other step.1 (bor (bshl step.2 1) (ofU32 a.length (getBit a k))) k

/-- Operator `biguint::operator/`: throws DivideByZero on a zero divisor,
otherwise binary long division from the most significant bit. -/
def bdiv (a b : List Nat) : Except BigErr (List Nat) :=
  if bisZero b then Except.error BigErr.divideByZero
  else
    Except.ok (bdivGo a b (List.replicate a.length 0)
      (ofU32 a.length (getBit a (a.length * WORD_SIZE - 1))) (a.length * WORD_SIZE - 1))

/-- Operator `biguint::operator[]`: bounds-checked word access, throwing
OutOfRange when the index reaches the width. -/
def bindex (l : List Nat) (at_ : Nat) : Except BigErr Nat :=
  if l.length ≤ at_ then Except.error BigErr.outOfRange
  else Except.ok (l.getD at_ 0)

/-- Value of a most-significant-first word list, matching the direction in
which biguint::_comparedTo walks the array. -/
def bigVal : List Nat → Nat
  | [] => 0
  | a :: as => a * U32 ^ as.length + bigVal as

/-- A zero mantissa never escapes the upward renormalization loop: the loop
body multiplies it by ten, leaving it zero, so the guard stays true for any
amount of fuel. -/
theorem normUpAux_zero (fuel : Nat) (p : Int) : normUpAux fuel 0 p = none := by
  induction fuel generalizing p with
  | zero =>
    rw [normUpAux]
    simp [SCALE]
  | succ k ih =>
    rw [normUpAux]
    simpa [SCALE] using ih (p - 1)

/-- The downward renormalization loop is the identity below `MANT_CAP`. -/
theorem normDownLoop_of_lt {m : Nat} (p : Int) (h : m < MANT_CAP) :
    normDownLoop m p = (m, p) := by
  rw [normDownLoop]
  simp [Nat.not_le.mpr h]

/-- C3: `dfloat::operator*` does NOT terminate for every pair of operands
satisfying the representation invariant.  For the denormal operand
`(POS, mant = 1, pow = MIN_POW)` (a legal denormal, value 10^-117), the
widened product mantissa is `1 * 1 / SCALE = 0`, and the renormalization
loop `while (new_mant < SCALE) { new_mant *= BASE; --new_pow; }` never
exits: the embedding returns `none` for every fuel.  This contradicts the
claim that multiplication terminates and returns a value for all
invariant-satisfying operands (the code is a slip — the loop lacks the zero
check that the underflow loop below it has). -/
theorem C3_mul_denormal_divergence :
    ∀ fuel : Nat, dfloat.mulF fuel ⟨Sign.pos, 1, -100⟩ ⟨Sign.pos, 1, -100⟩ = none := by
  intro fuel
  rw [dfloat.mulF]
  norm_num [SCALE, MANT_CAP, BASE, normUpAux_zero]
  rfl

/-- Auxiliary fact for C3's record: the failing operand satisfies the
representation invariant (it is a legal denormal). -/
theorem C3_operand_invariant : Inv ⟨Sign.pos, 1, -100⟩ := by decide

/-- C5: NaN propagation.  Every arithmetic operator with a NaN operand
returns a non-finite (NaN) result, and all six relational operators return
false when either operand is NaN, including `NaN == NaN` and `NaN != NaN`. -/
theorem C5_nan_propagation (x : dfloat) :
    (dfloat.add nanD x).isfinite = false ∧ (dfloat.add x nanD).isfinite = false ∧
    (dfloat.sub nanD x).isfinite = false ∧ (dfloat.sub x nanD).isfinite = false ∧
    (∀ fuel, dfloat.mulF fuel nanD x = some nanD ∧ dfloat.mulF fuel x nanD = some nanD) ∧
    (dfloat.div nanD x).isfinite = false ∧ (dfloat.div x nanD).isfinite = false ∧
    nanD.isfinite = false ∧
    dfloat.eqB nanD x = false ∧ dfloat.eqB x nanD = false ∧
    dfloat.neB nanD x = false ∧ dfloat.neB x nanD = false ∧
    dfloat.ltB nanD x = false ∧ dfloat.ltB x nanD = false ∧
    dfloat.gtB nanD x = false ∧ dfloat.gtB x nanD = false ∧
    dfloat.leB nanD x = false ∧ dfloat.leB x nanD = false ∧
    dfloat.geB nanD x = false ∧ dfloat.geB x nanD = false := by
  simp [dfloat.add, dfloat.sub, dfloat.neg, dfloat.mulF, dfloat.div, dfloat.isfinite,
    dfloat.eqB, dfloat.neB, dfloat.ltB, dfloat.gtB, dfloat.leB, dfloat.geB,
    dfloat.comparedTo, nanD]

/-- C6: dividing any dfloat by a zero-valued dfloat yields NaN.  Division is
a total function in the embedding exactly as in the source (`dfloat::operator/`
contains no throw): division by zero is reported through the NaN sentinel,
not an error channel. -/
theorem C6_div_zero_nan (a b : dfloat) (hb : b.sign = Sign.zero) :
    (dfloat.div a b).isfinite = false := by
  rw [dfloat.div]
  by_cases h : a.sign = Sign.nan ∨ b.sign = Sign.nan
  · simp [h, nanD, dfloat.isfinite]
  · simp [h, hb, nanD, dfloat.isfinite]

/-- Witness for C6 at the concrete input `5.0 / 0`. -/
theorem C6_witness : (dfloat.div ⟨Sign.pos, 5 * SCALE, 0⟩ zeroD).isfinite = false :=
  C6_div_zero_nan ⟨Sign.pos, 5 * SCALE, 0⟩ zeroD (by decide)

/-- Counterexample to C2 as stated: dividing the legal denormal
`(POS, mant = 1, pow = -100)` by the normal value `(POS, SCALE, -50)`
(i.e. 1.0e-50) produces `(POS, mant = 10, pow = -51)`, whose mantissa is
below `SCALE` although its exponent has not saturated at `MIN_POW` — the
single-step `if (new_mant < SCALE)` of `dfloat::operator/` cannot
renormalize a denormal numerator. -/
theorem C2_div_denormal_counterexample :
    Inv ⟨Sign.pos, 1, -100⟩ ∧ Inv ⟨Sign.pos, SCALE, -50⟩ ∧
    dfloat.div ⟨Sign.pos, 1, -100⟩ ⟨Sign.pos, SCALE, -50⟩ = ⟨Sign.pos, 10, -51⟩ ∧
    ¬ Inv (⟨Sign.pos, 10, -51⟩ : dfloat) := by
  have h1 : dfloat.div ⟨Sign.pos, 1, -100⟩ ⟨Sign.pos, SCALE, -50⟩ = ⟨Sign.pos, 10, -51⟩ := by
    rw [dfloat.div]
    norm_num [SCALE, BASE, MAX_POW, MIN_POW, U64, MANT_CAP, underflowLoop, underflowAux,
      normDownLoop_of_lt]
    rfl
  exact ⟨by decide, by decide, h1, by decide⟩

/-- C10: subtracting two close denormals at the MIN_POW boundary yields a
further-denormalized but still finite result:
`parse("1.1e-100") - parse("1e-100")` is finite and formats, with the
default scientific-notation exponent threshold 10, as exactly "0.1e-100". -/
theorem C10_denormal_sub_format :
    (dfloat.sub (dfloat.parse "1.1e-100") (dfloat.parse "1e-100")).isfinite = true ∧
    dfloat.to_string (dfloat.sub (dfloat.parse "1.1e-100") (dfloat.parse "1e-100")) 10 =
      "0.1e-100" := by
  constructor
  · decide
  · decide

/-- Any run of the parser that does not end in NaN consumed a suffix in
the current state's suffix language. -/
theorem parseRun_grammar :
    ∀ (rest : List Char) (st : PState) (acc : PAcc) (c : Char),
      (parseRun st acc c rest).sign ≠ Sign.nan → sufOf st rest = true := by
  intro rest
  induction rest with
  | nil =>
    intro st acc c h
    rw [parseRun] at h
    cases hA : pAction st acc c with
    | none => rw [hA] at h; exact absurd rfl h
    | some acc' =>
      rw [hA] at h
      cases st <;> first
        | rfl
        | (exact absurd rfl h)
  | cons c' r' ih =>
    intro st acc c h
    cases hA : pAction st acc c with
    | none =>
      rw [parseRun, hA] at h
      exact absurd rfl h
    | some acc' =>
      have h2 : (match pNext st c' with
          | none => nanD
          | some st' => parseRun st' acc' c' r').sign ≠ Sign.nan := by
        rw [parseRun, hA] at h
        exact h
      cases hN : pNext st c' with
      | none => rw [hN] at h2; exact absurd rfl h2
      | some st' =>
        rw [hN] at h2
        have hs := ih st' acc' c' h2
        clear h h2 ih hA
        cases st <;>
          simp only [pNext] at hN <;>
          split_ifs at hN with hc1 hc2 hc3 <;>
          first
            | exact Option.noConfusion hN
            | (injection hN with he; subst he;
               first
                 | (simp_all [sufOf, sufNum, sufAfterWhole, sufAfterFrac, sufFrac1,
                      sufExpStart, sufEsign, allDigits] <;> decide)
                 | (rcases hc3 with hE | hE <;> subst hE <;>
                    simp_all [sufOf, sufNum, sufAfterWhole, sufAfterFrac, sufFrac1,
                      sufExpStart, sufEsign, allDigits] <;> decide)
                 | (rcases hc2 with hE | hE <;> subst hE <;>
                    simp_all [sufOf, sufNum, sufAfterWhole, sufAfterFrac, sufFrac1,
                      sufExpStart, sufEsign, allDigits] <;> decide))



/-- Any complete parse that does not yield NaN consumed a string of the
surface grammar. -/
theorem parseChars_grammar (l : List Char) (h : (parseChars l).sign ≠ Sign.nan) :
    grammarB l = true := by
  cases l with
  | nil => exact absurd rfl h
  | cons c r =>
    rw [parseChars] at h
    by_cases h1 : c = '+' ∨ c = '-'
    · rw [grammarB]
      simp only [h1, if_true]
      simp only [if_pos h1] at h
      exact parseRun_grammar r PState.psign initAcc c h
    · by_cases h2 : c = '0'
      · have := parseRun_grammar r PState.leadz initAcc c (by
          simp only [if_neg h1, if_pos h2] at h; exact h)
        rw [grammarB]
        simp only [h1, if_false]
        rw [sufNum]
        subst h2
        simp only [Bool.and_eq_true]
        exact ⟨by decide, this⟩
      · by_cases h3 : isDigitC c = true
        · have := parseRun_grammar r PState.whole initAcc c (by
            simp only [if_neg h1, if_neg h2, h3, if_true] at h; exact h)
          rw [grammarB]
          simp only [h1, if_false]
          rw [sufNum]
          simp only [h3, Bool.true_and]
          exact this
        · exfalso
          apply h
          simp only [if_neg h1, if_neg h2]
          simp only [Bool.not_eq_true] at h3
          simp [h3, nanD]

/-- C8: `parse` is total — in the embedding it is a plain function
`String → dfloat`, mirroring the source, which returns on every input and
signals no error — and every string outside the accepted surface grammar
(including the empty string, ".", and any string ending right after a
sign, a decimal point or an exponent marker, none of which the grammar
accepts) yields NaN. -/
theorem C8_parse_total_nan (s : String) (h : grammarB s.data = false) :
    (dfloat.parse s).sign = Sign.nan := by
  by_contra hn
  have := parseChars_grammar s.data hn
  rw [this] at h
  exact Bool.noConfusion h

/-- Witness for C8 at the concrete bad inputs enumerated by the claim
(empty, ".", incomplete exponent, trailing decimal point, bare sign, and
a character outside the grammar). -/
theorem C8_witness :
    grammarB "".data = false ∧ grammarB ".".data = false ∧ grammarB "1e".data = false ∧
    grammarB "1.".data = false ∧ grammarB "+".data = false ∧ grammarB "12x3".data = false ∧
    (dfloat.parse "").sign = Sign.nan ∧ (dfloat.parse ".").sign = Sign.nan ∧
    (dfloat.parse "1e").sign = Sign.nan ∧ (dfloat.parse "1.").sign = Sign.nan ∧
    (dfloat.parse "+").sign = Sign.nan ∧ (dfloat.parse "12x3").sign = Sign.nan :=
  ⟨by decide, by decide, by decide, by decide, by decide, by decide,
   C8_parse_total_nan "" (by decide), C8_parse_total_nan "." (by decide), C8_parse_total_nan "1e" (by decide),
   C8_parse_total_nan "1." (by decide), C8_parse_total_nan "+" (by decide), C8_parse_total_nan "12x3" (by decide)⟩

/-- The alignment loop divides by BASE once per iteration. -/
theorem alignLoop_eq (k m : Nat) : alignLoop k m = m / BASE ^ k := by
  induction k generalizing m with
  | zero => simp [alignLoop]
  | succ n ih =>
    rw [alignLoop, ih, Nat.div_div_eq_div_mul, pow_succ]
    ring_nf

/-- Alignment never increases the mantissa. -/
theorem alignLoop_le (k m : Nat) : alignLoop k m ≤ m := by
  rw [alignLoop_eq]
  exact Nat.div_le_self m (BASE ^ k)

/-- At least one alignment step pushes a mantissa below SCALE. -/
theorem alignLoop_lt_scale {k m : Nat} (hk : 1 ≤ k) (hm : m < MANT_CAP) :
    alignLoop k m < SCALE := by
  rw [alignLoop_eq]
  have h1 : m / BASE ^ k ≤ m / BASE ^ 1 :=
    Nat.div_le_div_left (Nat.pow_le_pow_right (by norm_num [BASE]) hk) (by norm_num [BASE])
  have h2 : m / BASE ^ 1 < SCALE := by
    rw [pow_one]
    rw [Nat.div_lt_iff_lt_mul (by norm_num [BASE])]
    calc m < MANT_CAP := hm
    _ = SCALE * BASE := by rw [MANT_CAP]; ring
  exact Nat.lt_of_le_of_lt h1 h2



/-- Wraparound subtraction agrees with truncated subtraction when the
minuend dominates. -/
theorem sub64_eq {a b : Nat} (hba : b ≤ a) (ha : a < U64) : sub64 a b = a - b := by
  have hb : b ≤ U64 := le_trans hba (le_of_lt ha)
  rw [sub64]
  rw [show a + (U64 - b) = (a - b) + U64 by omega]
  rw [Nat.add_mod_right]
  exact Nat.mod_eq_of_lt (by omega)

/-- Specification of the denormal-aware renormalization loop of the
different-sign branch of addition. -/
theorem renormDenormAux_spec :
    ∀ (fuel : Nat) (m : Nat) (p : Int), 1 ≤ m → m < MANT_CAP →
      fuel = (p - MIN_POW).toNat → MIN_POW ≤ p →
      1 ≤ (renormDenormAux fuel m p).1 ∧ (renormDenormAux fuel m p).1 < MANT_CAP ∧
        MIN_POW ≤ (renormDenormAux fuel m p).2 ∧ (renormDenormAux fuel m p).2 ≤ p ∧
        (SCALE ≤ (renormDenormAux fuel m p).1 ∨ (renormDenormAux fuel m p).2 = MIN_POW) := by
  intro fuel
  induction fuel with
  | zero =>
    intro m p h1 h2 hf hp
    have hpp : p = MIN_POW := by omega
    simp [renormDenormAux, hpp, h1, h2, le_refl]
  | succ k ih =>
    intro m p h1 h2 hf hp
    rw [renormDenormAux]
    by_cases hm : m < SCALE
    · have hp1 : MIN_POW + 1 ≤ p := by omega
      have hf1 : k = (p - 1 - MIN_POW).toNat := by omega
      have hmb : m * BASE < MANT_CAP := by
        rw [MANT_CAP]
        calc m * BASE < SCALE * BASE :=
              (Nat.mul_lt_mul_right (by norm_num [BASE])).mpr hm
        _ = BASE * SCALE := by ring
      have := ih (m * BASE) (p - 1) (Nat.mul_pos h1 (by norm_num [BASE])) hmb hf1 (by omega)
      simp only [if_pos hm]
      exact ⟨this.1, this.2.1, this.2.2.1, by omega, this.2.2.2.2⟩
    · simp only [if_neg hm]
      exact ⟨h1, h2, hp, le_refl p, Or.inl (by omega)⟩



/-- Specification of the upward renormalization loop when it terminates. -/
theorem normUpAux_some :
    ∀ (fuel m : Nat) (p : Int) (m' : Nat) (p' : Int),
      normUpAux fuel m p = some (m', p') →
      SCALE ≤ m' ∧ p' ≤ p ∧ p - fuel ≤ p' ∧ (m' = m ∨ m' < MANT_CAP) := by
  intro fuel
  induction fuel with
  | zero =>
    intro m p m' p' h
    rw [normUpAux] at h
    by_cases hm : m < SCALE
    · simp [hm] at h
    · simp [hm] at h
      exact ⟨by omega, by omega, by omega, Or.inl h.1.symm⟩
  | succ k ih =>
    intro m p m' p' h
    rw [normUpAux] at h
    by_cases hm : m < SCALE
    · simp only [if_pos hm] at h
      have := ih (m * BASE) (p - 1) m' p' h
      refine ⟨this.1, by omega, by omega, Or.inr ?_⟩
      rcases this.2.2.2 with he | hlt
      · rw [he, MANT_CAP]
        calc m * BASE < SCALE * BASE := (Nat.mul_lt_mul_right (by norm_num [BASE])).mpr hm
        _ = BASE * SCALE := by ring
      · exact hlt
    · simp [hm] at h
      exact ⟨by omega, by omega, by omega, Or.inl h.1.symm⟩

/-- Specification of the underflow loop when it returns a value. -/
theorem underflowAux_spec :
    ∀ (fuel m : Nat) (p : Int) (m' : Nat) (p' : Int),
      fuel = (MIN_POW - p).toNat → 1 ≤ m → m < MANT_CAP →
      underflowAux fuel m p = some (m', p') →
      1 ≤ m' ∧ m' < MANT_CAP ∧ MIN_POW ≤ p' ∧
        ((m' = m ∧ p' = p ∧ MIN_POW ≤ p) ∨ p' = MIN_POW) := by
  intro fuel
  induction fuel with
  | zero =>
    intro m p m' p' hf h1 h2 h
    rw [underflowAux] at h
    injection h with h
    injection h with e1 e2
    subst e1; subst e2
    exact ⟨h1, h2, by omega, Or.inl ⟨rfl, rfl, by omega⟩⟩
  | succ k ih =>
    intro m p m' p' hf h1 h2 h
    rw [underflowAux] at h
    by_cases hz : m / BASE = 0
    · simp [hz] at h
    · simp only [if_neg hz] at h
      have hk : k = (MIN_POW - (p + 1)).toNat := by omega
      have hd1 : 1 ≤ m / BASE := Nat.one_le_iff_ne_zero.mpr hz
      have hd2 : m / BASE < MANT_CAP := Nat.lt_of_le_of_lt (Nat.div_le_self m BASE) h2
      have := ih (m / BASE) (p + 1) m' p' hk hd1 hd2 h
      refine ⟨this.1, this.2.1, this.2.2.1, Or.inr ?_⟩
      rcases this.2.2.2 with ⟨_, he2, hge⟩ | he
      · omega
      · exact he



/-- Specification of the downward renormalization loop. -/
theorem normDownLoop_spec (m : Nat) (p : Int) :
    (normDownLoop m p).1 < MANT_CAP ∧ p ≤ (normDownLoop m p).2 ∧
      ((normDownLoop m p).1 = m ∧ (normDownLoop m p).2 = p ∨ SCALE ≤ (normDownLoop m p).1) ∧
      (1 ≤ m → 1 ≤ (normDownLoop m p).1) := by
  induction m using Nat.strong_induction_on generalizing p with
  | _ m ih =>
    rw [normDownLoop]
    by_cases h : MANT_CAP ≤ m
    · have hm0 : 0 < m := Nat.lt_of_lt_of_le (by norm_num [MANT_CAP, BASE, SCALE]) h
      have hlt : m / BASE < m := Nat.div_lt_self hm0 (by norm_num [BASE])
      have := ih (m / BASE) hlt (p + 1)
      simp only [dif_pos h]
      refine ⟨this.1, by omega, Or.inr ?_, fun _ => ?_⟩
      · rcases this.2.2.1 with ⟨he, _⟩ | hs
        · rw [he]
          rw [Nat.le_div_iff_mul_le (by norm_num [BASE])]
          calc SCALE * BASE = MANT_CAP := by rw [MANT_CAP]; ring
          _ ≤ m := h
        · exact hs
      · apply this.2.2.2
        rw [Nat.le_div_iff_mul_le (by norm_num [BASE])]
        calc 1 * BASE = BASE := by ring
        _ ≤ MANT_CAP := by norm_num [MANT_CAP, BASE, SCALE]
        _ ≤ m := h
    · simp only [dif_neg h]
      exact ⟨by omega, le_refl p, Or.inl (by simp), fun h1 => h1⟩

/-- The downward renormalization loop increments the exponent at most
once per factor of BASE above MANT_CAP. -/
theorem normDownLoop_pow_le :
    ∀ (k m : Nat) (p : Int), m < MANT_CAP * BASE ^ k → (normDownLoop m p).2 ≤ p + k := by
  intro k
  induction k with
  | zero =>
    intro m p hm
    simp only [pow_zero, mul_one] at hm
    rw [normDownLoop_of_lt p hm]
    omega
  | succ j ih =>
    intro m p hm
    rw [normDownLoop]
    by_cases h : MANT_CAP ≤ m
    · simp only [dif_pos h]
      have hd : m / BASE < MANT_CAP * BASE ^ j := by
        rw [Nat.div_lt_iff_lt_mul (by norm_num [BASE])]
        calc m < MANT_CAP * BASE ^ (j + 1) := hm
        _ = MANT_CAP * BASE ^ j * BASE := by ring
      have := ih (m / BASE) (p + 1) hd
      omega
    · simp only [dif_neg h]
      omega



/-- A sign that is neither NaN nor zero is positive or negative. -/
theorem sign_pos_or_neg {s : Sign} (h1 : s ≠ Sign.nan) (h2 : s ≠ Sign.zero) :
    s = Sign.pos ∨ s = Sign.neg := by
  cases s <;> simp_all

/-- Unary minus preserves the representation invariant. -/
theorem neg_inv {d : dfloat} (h : Inv d) : Inv d.neg := by
  rcases d with ⟨s, m, p⟩
  cases s with
  | neg => intro _; exact h (Or.inr rfl)
  | pos => intro _; exact h (Or.inl rfl)
  | zero => intro hs; simp [dfloat.neg] at hs
  | nan => intro hs; simp [dfloat.neg] at hs

/-- MANT_CAP fits in 64 bits. -/
theorem mant_cap_lt_u64 : MANT_CAP < U64 := by norm_num [MANT_CAP, U64, SCALE, BASE]

/-- The renormalize/overflow-check/underflow pipeline shared by multiply
produces invariant-satisfying mantissa/exponent pairs. -/
theorem pipeline_inv {fuel : Nat} {m0 : Nat} {p0 : Int} {m2 : Nat} {p2 : Int}
    {m3 : Nat} {p3 : Int} (hm0 : m0 < MANT_CAP)
    (hN : normUpAux fuel m0 p0 = some (m2, p2))
    (hmax : ¬ MAX_POW < p2)
    (hU : underflowLoop m2 p2 = some (m3, p3)) :
    MIN_POW ≤ p3 ∧ p3 ≤ MAX_POW ∧ 1 ≤ m3 ∧ m3 < MANT_CAP ∧
      (SCALE ≤ m3 ∨ p3 = MIN_POW) := by
  have hNs := normUpAux_some fuel m0 p0 m2 p2 hN
  have hm2 : m2 < MANT_CAP := by
    rcases hNs.2.2.2 with he | hlt
    · omega
    · exact hlt
  have hUs := underflowAux_spec (MIN_POW - p2).toNat m2 p2 m3 p3 rfl
    (le_trans (by norm_num [SCALE]) hNs.1) hm2 hU
  refine ⟨hUs.2.2.1, ?_, hUs.1, hUs.2.1, ?_⟩
  · rcases hUs.2.2.2 with ⟨_, he2, _⟩ | he
    · omega
    · rw [he]; norm_num [MIN_POW, MAX_POW]
  · rcases hUs.2.2.2 with ⟨he1, _, _⟩ | he
    · exact Or.inl (he1 ▸ hNs.1)
    · exact Or.inr he

/-- Multiplication preserves the representation invariant whenever its
renormalization loop terminates. -/
theorem mulF_inv {fuel : Nat} {a b c : dfloat} (ha : Inv a) (hb : Inv b)
    (h : dfloat.mulF fuel a b = some c) : Inv c := by
  rw [dfloat.mulF] at h
  by_cases h1 : a.sign = Sign.nan ∨ b.sign = Sign.nan
  · rw [if_pos h1] at h
    injection h with h
    subst h
    intro hs
    simp [nanD] at hs
  · rw [if_neg h1] at h
    by_cases h2 : a.sign = Sign.zero ∨ b.sign = Sign.zero
    · rw [if_pos h2] at h
      injection h with h
      subst h
      intro hs
      simp [zeroD] at hs
    · rw [if_neg h2] at h
      push_neg at h1 h2
      have hA := ha (sign_pos_or_neg h1.1 h2.1)
      have hB := hb (sign_pos_or_neg h1.2 h2.2)
      have hprod : a.mant * b.mant < MANT_CAP * MANT_CAP := by
        calc a.mant * b.mant ≤ (MANT_CAP - 1) * (MANT_CAP - 1) :=
              Nat.mul_le_mul (by omega) (by omega)
        _ < MANT_CAP * MANT_CAP := by norm_num [MANT_CAP, SCALE, BASE]
      have hnm : a.mant * b.mant / SCALE < MANT_CAP * BASE := by
        rw [Nat.div_lt_iff_lt_mul (by norm_num [SCALE])]
        calc a.mant * b.mant < MANT_CAP * MANT_CAP := hprod
        _ = MANT_CAP * BASE * SCALE := by rw [MANT_CAP]; ring
      simp only at h
      split at h
      · exact absurd h (by simp)
      case _ m2 p2 heqN =>
        split at h
        · injection h with h
          subst h
          intro hs
          simp at hs
        case _ hmax =>
          split at h
          · injection h with h
            subst h
            intro hs
            simp [zeroD] at hs
          case _ m3 p3 heqU =>
            injection h with h
            subst h
            -- establish the entry bound for the pipeline
            have hm0 : (if MANT_CAP ≤ a.mant * b.mant / SCALE then
                (a.mant * b.mant / SCALE / BASE, a.pow + b.pow + 1)
                else (a.mant * b.mant / SCALE, a.pow + b.pow)).1 < MANT_CAP := by
              split
              case _ hcap =>
                rw [Nat.div_lt_iff_lt_mul (by norm_num [BASE])]
                exact hnm
              case _ hcap => omega
            have hP := pipeline_inv hm0 heqN hmax heqU
            have hmod : m3 % U64 = m3 :=
              Nat.mod_eq_of_lt (lt_trans hP.2.2.2.1 mant_cap_lt_u64)
            intro _
            refine ⟨hP.1, hP.2.1, ?_, ?_, ?_⟩
            · simpa [hmod] using hP.2.2.1
            · simpa [hmod] using hP.2.2.2.1
            · simp only [hmod]
              exact hP.2.2.2.2



/-- Division preserves the representation invariant when the numerator is
not denormal. -/
theorem div_inv (a b : dfloat) (ha : Inv a) (hb : Inv b)
    (hnum : a.sign = Sign.pos ∨ a.sign = Sign.neg → SCALE ≤ a.mant) :
    Inv (dfloat.div a b) := by
  rw [dfloat.div]
  by_cases h1 : a.sign = Sign.nan ∨ b.sign = Sign.nan
  · rw [if_pos h1]
    intro hs
    simp [nanD] at hs
  · rw [if_neg h1]
    by_cases h2 : b.sign = Sign.zero
    · rw [if_pos h2]
      intro hs
      simp [nanD] at hs
    · rw [if_neg h2]
      by_cases h3 : a.sign = Sign.zero
      · rw [if_pos h3]
        intro hs
        simp [zeroD] at hs
      · rw [if_neg h3]
        push_neg at h1
        have hA := ha (sign_pos_or_neg h1.1 h3)
        have hB := hb (sign_pos_or_neg h1.2 h2)
        have hnum' := hnum (sign_pos_or_neg h1.1 h3)
        have hq : SCALE / BASE = 10000000000000000 := by norm_num [SCALE, BASE]
        have hlow : SCALE / BASE ≤ a.mant * SCALE / b.mant := by
          have hd : SCALE * SCALE / (MANT_CAP - 1) ≤ a.mant * SCALE / b.mant :=
            Nat.div_le_div (Nat.mul_le_mul hnum' (le_refl SCALE)) (by omega) (by omega)
          have he : SCALE * SCALE / (MANT_CAP - 1) = SCALE / BASE := by
            norm_num [SCALE, MANT_CAP, BASE]
          omega
        have hS := normDownLoop_spec (a.mant * SCALE / b.mant) (a.pow - b.pow)
        have hst1 : SCALE / BASE ≤ (normDownLoop (a.mant * SCALE / b.mant) (a.pow - b.pow)).1 := by
          rcases hS.2.2.1 with ⟨he, _⟩ | hsc
          · omega
          · have : SCALE / BASE ≤ SCALE := Nat.div_le_self SCALE BASE
            omega
        simp only
        split
        case _ hlt =>
          -- the single upward adjustment step ran
          split
          case _ hmax =>
            intro hs
            simp at hs
          case _ hmax =>
            split
            case _ hU =>
              intro hs
              simp [zeroD] at hs
            case _ m3 p3 hU =>
              have hadj1 : SCALE ≤ (normDownLoop (a.mant * SCALE / b.mant) (a.pow - b.pow)).1 * BASE := by
                calc SCALE = 10000000000000000 * BASE := by norm_num [SCALE, BASE]
                _ ≤ _ := Nat.mul_le_mul_right BASE (by omega)
              have hadj2 : (normDownLoop (a.mant * SCALE / b.mant) (a.pow - b.pow)).1 * BASE < MANT_CAP := by
                rw [MANT_CAP]
                calc _ < SCALE * BASE := (Nat.mul_lt_mul_right (by norm_num [BASE])).mpr hlt
                _ = BASE * SCALE := by ring
              have hUs := underflowAux_spec _ _ _ m3 p3 rfl (by omega) hadj2 hU
              have hmod : m3 % U64 = m3 :=
                Nat.mod_eq_of_lt (lt_trans hUs.2.1 mant_cap_lt_u64)
              intro _
              show MIN_POW ≤ p3 ∧ p3 ≤ MAX_POW ∧ 1 ≤ m3 % U64 ∧ m3 % U64 < MANT_CAP ∧
                (SCALE ≤ m3 % U64 ∨ p3 = MIN_POW)
              rw [hmod]
              refine ⟨hUs.2.2.1, ?_, by omega, by omega, ?_⟩
              · rcases hUs.2.2.2 with ⟨_, he2, _⟩ | he
                · omega
                · rw [he]
                  norm_num [MIN_POW, MAX_POW]
              · rcases hUs.2.2.2 with ⟨he1, _, _⟩ | he
                · exact Or.inl (he1 ▸ hadj1)
                · exact Or.inr he
        case _ hge =>
          push_neg at hge
          split
          case _ hmax =>
            intro hs
            simp at hs
          case _ hmax =>
            split
            case _ hU =>
              intro hs
              simp [zeroD] at hs
            case _ m3 p3 hU =>
              have hUs := underflowAux_spec _ _ _ m3 p3 rfl (by omega) hS.1 hU
              have hmod : m3 % U64 = m3 :=
                Nat.mod_eq_of_lt (lt_trans hUs.2.1 mant_cap_lt_u64)
              intro _
              show MIN_POW ≤ p3 ∧ p3 ≤ MAX_POW ∧ 1 ≤ m3 % U64 ∧ m3 % U64 < MANT_CAP ∧
                (SCALE ≤ m3 % U64 ∨ p3 = MIN_POW)
              rw [hmod]
              refine ⟨hUs.2.2.1, ?_, by omega, by omega, ?_⟩
              · rcases hUs.2.2.2 with ⟨_, he2, _⟩ | he
                · omega
                · rw [he]
                  norm_num [MIN_POW, MAX_POW]
              · rcases hUs.2.2.2 with ⟨he1, _, _⟩ | he
                · exact Or.inl (he1 ▸ hge)
                · exact Or.inr he



/-- The upward renormalization loop terminates whenever enough fuel is
supplied for the mantissa to reach SCALE. -/
theorem normUpAux_isSome :
    ∀ (fuel m : Nat) (p : Int), SCALE ≤ m * BASE ^ fuel →
      ∃ r, normUpAux fuel m p = some r := by
  intro fuel
  induction fuel with
  | zero =>
    intro m p h
    simp only [pow_zero, mul_one] at h
    rw [normUpAux]
    simp [Nat.not_lt.mpr h]
  | succ k ih =>
    intro m p h
    rw [normUpAux]
    by_cases hm : m < SCALE
    · rw [if_pos hm]
      exact ih (m * BASE) (p - 1) (by calc SCALE ≤ m * BASE ^ (k + 1) := h
        _ = m * BASE * BASE ^ k := by ring)
    · rw [if_neg hm]
      exact ⟨(m, p), rfl⟩

/-- Any 64-bit value is below MANT_CAP times BASE squared. -/
theorem u64_lt_bound : U64 < MANT_CAP * BASE ^ 2 := by
  norm_num [U64, MANT_CAP, BASE, SCALE]

/-- The unsigned integer constructor always produces a value, and that
value satisfies the representation invariant. -/
theorem ofNatD_inv (v : Nat) (hv : v < U64) :
    (∃ d, ofNatD v = some d) ∧ ∀ d, ofNatD v = some d → Inv d := by
  rw [ofNatD]
  by_cases h0 : v = 0
  · rw [if_pos h0]
    refine ⟨⟨zeroD, rfl⟩, ?_⟩
    intro d hd
    injection hd with hd
    subst hd
    intro hs
    simp [zeroD] at hs
  · rw [if_neg h0]
    have h1 : 1 ≤ v := Nat.one_le_iff_ne_zero.mpr h0
    have hsome := normUpAux_isSome 17 v SCALE_POW (by
      calc SCALE = 1 * BASE ^ 17 := by norm_num [SCALE, BASE]
      _ ≤ v * BASE ^ 17 := Nat.mul_le_mul_right _ h1)
    rcases hsome with ⟨⟨m1, p1⟩, heq⟩
    rw [heq]
    have hNs := normUpAux_some 17 v SCALE_POW m1 p1 heq
    have hm1lt : m1 < MANT_CAP * BASE ^ 2 := by
      rcases hNs.2.2.2 with he | hlt
      · subst he
        exact lt_trans hv u64_lt_bound
      · calc m1 < MANT_CAP := hlt
        _ ≤ MANT_CAP * BASE ^ 2 := Nat.le_mul_of_pos_right MANT_CAP (by norm_num [BASE])
    have hD := normDownLoop_spec m1 p1
    have hDp := normDownLoop_pow_le 2 m1 p1 hm1lt
    refine ⟨⟨_, rfl⟩, ?_⟩
    intro d hd
    injection hd with hd
    subst hd
    intro _
    have hsc : SCALE ≤ (normDownLoop m1 p1).1 := by
      rcases hD.2.2.1 with ⟨he, _⟩ | hsc
      · omega
      · exact hsc
    have h17 : SCALE_POW = (17:Int) := rfl
    have hgep : SCALE_POW - 17 ≤ p1 := hNs.2.2.1
    have hlep : p1 ≤ SCALE_POW := hNs.2.1
    have hrp : p1 ≤ (normDownLoop m1 p1).2 := hD.2.1
    have hs1 : (1:Nat) ≤ SCALE := by norm_num [SCALE]
    refine ⟨?_, ?_, le_trans hs1 hsc, hD.1, Or.inl hsc⟩
    · show MIN_POW ≤ (normDownLoop m1 p1).2
      rw [show MIN_POW = (-100:Int) from rfl]
      omega
    · show (normDownLoop m1 p1).2 ≤ MAX_POW
      rw [show MAX_POW = (100:Int) from rfl]
      omega



/-- The signed integer constructor always produces a value, and that
value satisfies the representation invariant. -/
theorem ofIntD_inv (v : Int) (hv : v.natAbs < U64) :
    (∃ d, ofIntD v = some d) ∧ ∀ d, ofIntD v = some d → Inv d := by
  rw [ofIntD]
  by_cases h0 : v = 0
  · rw [if_pos h0]
    refine ⟨⟨zeroD, rfl⟩, ?_⟩
    intro d hd
    injection hd with hd
    subst hd
    intro hs
    simp [zeroD] at hs
  · rw [if_neg h0]
    have h1 : 1 ≤ v.natAbs := Int.natAbs_pos.mpr h0
    have hsome := normUpAux_isSome 17 v.natAbs SCALE_POW (by
      calc SCALE = 1 * BASE ^ 17 := by norm_num [SCALE, BASE]
      _ ≤ v.natAbs * BASE ^ 17 := Nat.mul_le_mul_right _ h1)
    rcases hsome with ⟨⟨m1, p1⟩, heq⟩
    simp only
    rw [heq]
    have hNs := normUpAux_some 17 v.natAbs SCALE_POW m1 p1 heq
    have hm1lt : m1 < MANT_CAP * BASE ^ 2 := by
      rcases hNs.2.2.2 with he | hlt
      · subst he
        exact lt_trans hv u64_lt_bound
      · calc m1 < MANT_CAP := hlt
        _ ≤ MANT_CAP * BASE ^ 2 := Nat.le_mul_of_pos_right MANT_CAP (by norm_num [BASE])
    have hD := normDownLoop_spec m1 p1
    have hDp := normDownLoop_pow_le 2 m1 p1 hm1lt
    refine ⟨⟨_, rfl⟩, ?_⟩
    intro d hd
    injection hd with hd
    subst hd
    intro _
    have hsc : SCALE ≤ (normDownLoop m1 p1).1 := by
      rcases hD.2.2.1 with ⟨he, _⟩ | hsc
      · omega
      · exact hsc
    have h17 : SCALE_POW = (17:Int) := rfl
    have hgep : SCALE_POW - 17 ≤ p1 := hNs.2.2.1
    have hlep : p1 ≤ SCALE_POW := hNs.2.1
    have hrp : p1 ≤ (normDownLoop m1 p1).2 := hD.2.1
    have hs1 : (1:Nat) ≤ SCALE := by norm_num [SCALE]
    refine ⟨?_, ?_, le_trans hs1 hsc, hD.1, Or.inl hsc⟩
    · show MIN_POW ≤ (normDownLoop m1 p1).2
      rw [show MIN_POW = (-100:Int) from rfl]
      omega
    · show (normDownLoop m1 p1).2 ≤ MAX_POW
      rw [show MAX_POW = (100:Int) from rfl]
      omega



/-- Reading of a MORE magnitude comparison. -/
theorem compareMag_more {a b : dfloat} (h : a.compareMagnitudeTo b = CompRes.more) :
    b.pow < a.pow ∨ (a.pow = b.pow ∧ b.mant < a.mant) := by
  rw [dfloat.compareMagnitudeTo] at h
  split_ifs at h <;> first
    | (exact Or.inl (by assumption))
    | (exact Or.inr ⟨by omega, by assumption⟩)
    | simp_all

/-- Reading of a LESS magnitude comparison. -/
theorem compareMag_less {a b : dfloat} (h : a.compareMagnitudeTo b = CompRes.less) :
    a.pow < b.pow ∨ (b.pow = a.pow ∧ a.mant < b.mant) := by
  rw [dfloat.compareMagnitudeTo] at h
  split_ifs at h <;> first
    | (exact Or.inl (by assumption))
    | (exact Or.inr ⟨by omega, by assumption⟩)
    | simp_all

/-- Magnitude comparison never reports the NaN result. -/
theorem compareMag_ne_nanr (a b : dfloat) : a.compareMagnitudeTo b ≠ CompRes.nanr := by
  rw [dfloat.compareMagnitudeTo]
  split_ifs <;> simp

/-- The different-sign branch of addition produces an invariant-satisfying
result for any larger-magnitude/smaller-magnitude decomposition. -/
theorem sub_branch_inv (s : Sign) (am : Nat) (ap : Int) (bm : Nat) (bp : Int)
    (ham1 : 1 ≤ am) (ham2 : am < MANT_CAP) (hapl : MIN_POW ≤ ap) (hapu : ap ≤ MAX_POW)
    (hden : SCALE ≤ am ∨ ap = MIN_POW)
    (hbm : bm < MANT_CAP) (hbp : MIN_POW ≤ bp)
    (hgt : bp < ap ∨ (ap = bp ∧ bm < am)) :
    Inv ⟨s, (renormDenorm (sub64 am (alignLoop (ap - bp).toNat bm)) ap).1,
         (renormDenorm (sub64 am (alignLoop (ap - bp).toNat bm)) ap).2⟩ := by
  have hba : alignLoop (ap - bp).toNat bm < am := by
    rcases hgt with hlt | ⟨heq, hm⟩
    · have hk : 1 ≤ (ap - bp).toNat := by omega
      have hs1 : alignLoop (ap - bp).toNat bm < SCALE := alignLoop_lt_scale hk hbm
      have hs2 : SCALE ≤ am := by
        rcases hden with h | h
        · exact h
        · omega
      omega
    · have hk : (ap - bp).toNat = 0 := by omega
      rw [hk]
      exact hm
  have hsub : sub64 am (alignLoop (ap - bp).toNat bm) = am - alignLoop (ap - bp).toNat bm :=
    sub64_eq (le_of_lt hba) (lt_trans ham2 mant_cap_lt_u64)
  have h1 : 1 ≤ am - alignLoop (ap - bp).toNat bm := by omega
  have h2 : am - alignLoop (ap - bp).toNat bm < MANT_CAP := by omega
  have hR := renormDenormAux_spec (ap - MIN_POW).toNat
    (am - alignLoop (ap - bp).toNat bm) ap h1 h2 rfl hapl
  intro _
  rw [renormDenorm, hsub]
  exact ⟨hR.2.2.1, le_trans hR.2.2.2.1 hapu, hR.1, hR.2.1, hR.2.2.2.2⟩



/-- Twice MANT_CAP fits in 64 bits (the headroom the mantissa type gives
addition). -/
theorem two_mant_cap_le_u64 : 2 * MANT_CAP ≤ U64 := by
  norm_num [MANT_CAP, U64, SCALE, BASE]

/-- Addition preserves the representation invariant. -/
theorem add_inv (a b : dfloat) (ha : Inv a) (hb : Inv b) : Inv (dfloat.add a b) := by
  rw [dfloat.add]
  by_cases h1 : a.sign = Sign.nan ∨ b.sign = Sign.nan
  · rw [if_pos h1]
    intro hs
    simp [nanD] at hs
  · rw [if_neg h1]
    by_cases h2 : a.sign = Sign.zero
    · rw [if_pos h2]
      exact hb
    · rw [if_neg h2]
      by_cases h3 : b.sign = Sign.zero
      · rw [if_pos h3]
        exact ha
      · rw [if_neg h3]
        push_neg at h1
        have hA := ha (sign_pos_or_neg h1.1 h2)
        have hB := hb (sign_pos_or_neg h1.2 h3)
        by_cases h4 : a.sign = b.sign
        · rw [if_pos h4]
          simp only
          have hma := alignLoop_le (b.pow - a.pow).toNat a.mant
          have hmb := alignLoop_le (a.pow - b.pow).toNat b.mant
          have hsum : alignLoop (b.pow - a.pow).toNat a.mant +
              alignLoop (a.pow - b.pow).toNat b.mant < U64 := by
            have := two_mant_cap_le_u64
            omega
          rw [Nat.mod_eq_of_lt hsum]
          have hcap2 : 2 * MANT_CAP ≤ MANT_CAP * BASE := by
            norm_num [MANT_CAP, BASE, SCALE]
          split
          case _ hcap =>
            split
            case _ hmax =>
              intro hs
              simp at hs
            case _ hmax =>
              intro _
              refine ⟨?_, ?_, ?_, ?_, Or.inl ?_⟩
              · show MIN_POW ≤ a.pow + ((b.pow - a.pow).toNat : Int) + 1
                omega
              · show a.pow + ((b.pow - a.pow).toNat : Int) + 1 ≤ MAX_POW
                omega
              · show 1 ≤ (alignLoop (b.pow - a.pow).toNat a.mant +
                  alignLoop (a.pow - b.pow).toNat b.mant) / BASE
                have hsc : SCALE * BASE ≤ alignLoop (b.pow - a.pow).toNat a.mant +
                    alignLoop (a.pow - b.pow).toNat b.mant := by
                  calc SCALE * BASE = MANT_CAP := by rw [MANT_CAP]; ring
                  _ ≤ _ := hcap
                rw [Nat.le_div_iff_mul_le (by norm_num [BASE])]
                have : (1:Nat) * BASE ≤ SCALE * BASE := by norm_num [SCALE, BASE]
                omega
              · show (alignLoop (b.pow - a.pow).toNat a.mant +
                  alignLoop (a.pow - b.pow).toNat b.mant) / BASE < MANT_CAP
                rw [Nat.div_lt_iff_lt_mul (by norm_num [BASE])]
                omega
              · show SCALE ≤ (alignLoop (b.pow - a.pow).toNat a.mant +
                  alignLoop (a.pow - b.pow).toNat b.mant) / BASE
                rw [Nat.le_div_iff_mul_le (by norm_num [BASE])]
                calc SCALE * BASE = MANT_CAP := by rw [MANT_CAP]; ring
                _ ≤ _ := hcap
          case _ hcap =>
            push_neg at hcap
            intro _
            by_cases hpp : a.pow ≤ b.pow
            · have hk : (a.pow - b.pow).toNat = 0 := by omega
              rw [hk] at hcap ⊢
              simp only [alignLoop] at hcap ⊢
              refine ⟨by omega, by omega, by omega, hcap, ?_⟩
              rcases hB.2.2.2.2 with hbig | hmin
              · exact Or.inl (by omega)
              · refine Or.inr ?_
                omega
            · have hk : (b.pow - a.pow).toNat = 0 := by omega
              rw [hk] at hcap ⊢
              simp only [alignLoop] at hcap ⊢
              refine ⟨by omega, by omega, by omega, hcap, ?_⟩
              rcases hA.2.2.2.2 with hbig | hmin
              · exact Or.inl (by omega)
              · refine Or.inr ?_
                omega
        · rw [if_neg h4]
          simp only
          split
          next hne =>
            intro hs
            simp [zeroD] at hs
          next cr hne =>
            by_cases hm : a.compareMagnitudeTo b = CompRes.more
            · rw [if_pos hm]
              exact sub_branch_inv a.sign a.mant a.pow b.mant b.pow hA.2.2.1 hA.2.2.2.1
                hA.1 hA.2.1 hA.2.2.2.2 hB.2.2.2.1 hB.1 (compareMag_more hm)
            · rw [if_neg hm]
              have hl : a.compareMagnitudeTo b = CompRes.less := by
                cases hcm : a.compareMagnitudeTo b with
                | less => rfl
                | equal => exact absurd (hne hcm) (by simp)
                | more => exact absurd hcm hm
                | nanr => exact absurd hcm (compareMag_ne_nanr a b)
              exact sub_branch_inv b.sign b.mant b.pow a.mant a.pow hB.2.2.1 hB.2.2.2.1
                hB.1 hB.2.1 hB.2.2.2.2 hA.2.2.2.1 hA.1 (compareMag_less hl)


/-- Specification of the mantissa-normalization loop of parse when it
succeeds. -/
theorem parseNormAux_some :
    ∀ (fuel m : Nat) (p : Int) (m' : Nat) (p' : Int), m < MANT_CAP →
      parseNormAux fuel m p = some (m', p') → SCALE ≤ m' ∧ m' < MANT_CAP := by
  intro fuel
  induction fuel with
  | zero =>
    intro m p m' p' hm h
    rw [parseNormAux] at h
    by_cases h1 : m < SCALE
    · simp [h1] at h
    · simp [h1] at h
      omega
  | succ k ih =>
    intro m p m' p' hm h
    rw [parseNormAux] at h
    by_cases h1 : m < SCALE
    · rw [if_pos h1] at h
      by_cases h2 : p ≤ MIN_POW
      · simp [h2] at h
      · rw [if_neg h2] at h
        have hmb : m * BASE < MANT_CAP := by
          rw [MANT_CAP]
          calc m * BASE < SCALE * BASE := (Nat.mul_lt_mul_right (by norm_num [BASE])).mpr h1
          _ = BASE * SCALE := by ring
        exact ih (m * BASE) (p - 1) m' p' hmb h
    · simp [h1] at h
      omega

/-- The done block of parse builds an invariant-satisfying value. -/
theorem pDone_inv (acc : PAcc) (hm : acc.mant < MANT_CAP) : Inv (pDone acc) := by
  rw [pDone]
  split
  next => intro hs; simp [nanD] at hs
  next m p hN =>
    have hP := parseNormAux_some _ _ _ m p hm hN
    split
    next => intro hs; simp [nanD] at hs
    next hcond =>
      push_neg at hcond
      have hs1 : (1:Nat) ≤ SCALE := by norm_num [SCALE]
      intro _
      refine ⟨?_, ?_, ?_, hP.2, Or.inl hP.1⟩
      · show MIN_POW ≤ p + acc.exp_pow
        omega
      · show p + acc.exp_pow ≤ MAX_POW
        omega
      · show (1:Nat) ≤ m
        omega

/-- A digit character has value at most nine. -/
theorem digitVal_le {c : Char} (h : isDigitC c = true) : digitVal c ≤ 9 := by
  rw [isDigitC] at h
  rw [digitVal]
  have := of_decide_eq_true h
  omega

/-- Every parser action keeps the mantissa below MANT_CAP (digit-appending
states are only entered on digit characters). -/
theorem pAction_mant {st : PState} {acc : PAcc} {c : Char} {acc' : PAcc}
    (h : pAction st acc c = some acc') (hm : acc.mant < MANT_CAP)
    (hc : isDigitC c = true ∨ (st ≠ PState.whole ∧ st ≠ PState.frac2)) :
    acc'.mant < MANT_CAP := by
  have hB10 : BASE = 10 := rfl
  have hMC : MANT_CAP = 10 * SCALE := rfl
  cases st with
  | whole =>
    have hd : digitVal c ≤ 9 := by
      rcases hc with h' | h'
      · exact digitVal_le h'
      · exact absurd rfl h'.1
    simp only [pAction] at h
    by_cases h1 : SCALE ≤ acc.mant
    · rw [if_pos h1] at h
      by_cases h2 : MAX_POW ≤ acc.pow
      · simp [h2] at h
      · rw [if_neg h2] at h
        injection h with h
        subst h
        exact hm
    · rw [if_neg h1] at h
      injection h with h
      subst h
      show acc.mant * BASE + digitVal c < MANT_CAP
      rw [hB10, hMC]
      omega
  | frac2 =>
    have hd : digitVal c ≤ 9 := by
      rcases hc with h' | h'
      · exact digitVal_le h'
      · exact absurd rfl h'.2
    simp only [pAction] at h
    by_cases h1 : SCALE ≤ acc.mant
    · rw [if_pos h1] at h
      injection h with h
      subst h
      exact hm
    · rw [if_neg h1] at h
      by_cases h2 : acc.pow ≤ MIN_POW
      · simp [h2] at h
      · rw [if_neg h2] at h
        injection h with h
        subst h
        show acc.mant * BASE + digitVal c < MANT_CAP
        rw [hB10, hMC]
        omega
  | e1 =>
    simp only [pAction] at h
    split at h
    · exact Option.noConfusion h
    next m p hN =>
      injection h with h
      subst h
      exact (parseNormAux_some _ _ _ m p hm hN).2
  | psign => simp only [pAction] at h; injection h with h; subst h; exact hm
  | leadz => simp only [pAction] at h; injection h with h; subst h; exact hm
  | ze1 => simp only [pAction] at h; injection h with h; subst h; exact hm
  | zes => simp only [pAction] at h; injection h with h; subst h; exact hm
  | ze2 => simp only [pAction] at h; injection h with h; subst h; exact hm
  | frac1 => simp only [pAction] at h; injection h with h; subst h; exact hm
  | es => simp only [pAction] at h; injection h with h; subst h; exact hm
  | e2 =>
    simp only [pAction] at h
    split at h <;> split at h <;>
      first
        | exact Option.noConfusion h
        | (injection h with h; subst h; exact hm)
        | (split at h <;>
            first
              | exact Option.noConfusion h
              | (injection h with h; subst h; exact hm))

/-- The transition table enters the digit-appending states only on digit
characters. -/
theorem pNext_digit {st : PState} {c : Char} {st' : PState} (h : pNext st c = some st') :
    isDigitC c = true ∨ (st' ≠ PState.whole ∧ st' ≠ PState.frac2) := by
  cases st <;> simp only [pNext] at h <;> split_ifs at h <;>
    first
      | exact Option.noConfusion h
      | (injection h with h; subst h; left; assumption)
      | (injection h with h; subst h; right;
         exact ⟨fun hq => PState.noConfusion hq, fun hq => PState.noConfusion hq⟩)

/-- Every run of the parser produces an invariant-satisfying value. -/
theorem parseRun_inv :
    ∀ (rest : List Char) (st : PState) (acc : PAcc) (c : Char),
      acc.mant < MANT_CAP →
      (isDigitC c = true ∨ (st ≠ PState.whole ∧ st ≠ PState.frac2)) →
      Inv (parseRun st acc c rest) := by
  intro rest
  induction rest with
  | nil =>
    intro st acc c hm hc
    rw [parseRun]
    split
    next => intro hs; simp [nanD] at hs
    next acc' hA =>
      have hm' := pAction_mant hA hm hc
      cases st with
      | whole => exact pDone_inv acc' hm'
      | frac2 => exact pDone_inv acc' hm'
      | e2 => exact pDone_inv acc' hm'
      | leadz => intro hs; simp [pEnd, zeroD] at hs
      | ze2 => intro hs; simp [pEnd, zeroD] at hs
      | psign => intro hs; simp [pEnd, nanD] at hs
      | ze1 => intro hs; simp [pEnd, nanD] at hs
      | zes => intro hs; simp [pEnd, nanD] at hs
      | frac1 => intro hs; simp [pEnd, nanD] at hs
      | e1 => intro hs; simp [pEnd, nanD] at hs
      | es => intro hs; simp [pEnd, nanD] at hs
  | cons c' r' ih =>
    intro st acc c hm hc
    rw [parseRun]
    split
    next => intro hs; simp [nanD] at hs
    next acc' hA =>
      have hm' := pAction_mant hA hm hc
      show Inv (match pNext st c' with
        | none => nanD
        | some st' => parseRun st' acc' c' r')
      split
      next => intro hs; simp [nanD] at hs
      next st' hN => exact ih st' acc' c' hm' (pNext_digit hN)

/-- `parse` always produces an invariant-satisfying value. -/
theorem parse_inv (s : String) : Inv (dfloat.parse s) := by
  rw [dfloat.parse]
  cases hd : s.data with
  | nil => decide
  | cons c r =>
    rw [parseChars]
    have hm0 : initAcc.mant < MANT_CAP := by norm_num [initAcc, MANT_CAP, SCALE, BASE]
    by_cases h1 : c = '+' ∨ c = '-'
    · rw [if_pos h1]
      exact parseRun_inv r PState.psign initAcc c hm0 (Or.inr (by simp))
    · rw [if_neg h1]
      by_cases h2 : c = '0'
      · rw [if_pos h2]
        exact parseRun_inv r PState.leadz initAcc c hm0 (Or.inr (by simp))
      · rw [if_neg h2]
        by_cases h3 : isDigitC c = true
        · rw [if_pos h3]
          exact parseRun_inv r PState.whole initAcc c hm0 (Or.inl h3)
        · rw [if_neg h3]
          intro hs
          simp [nanD] at hs



/-- C2 (amended): every value produced by addition, subtraction,
multiplication (when its renormalization loop terminates), parsing or
integer construction from operands satisfying the representation invariant
satisfies it again; division preserves the invariant provided the numerator
is not denormal (`SCALE ≤ mant` when nonzero).  The amendment is forced by
`C2_div_denormal_counterexample`: dividing a denormal numerator can yield
`mant < SCALE` (even 0) with `pow` above `MIN_POW`, because
`dfloat::operator/` renormalizes upward with a single `if` instead of the
`while` loop multiply uses. -/
theorem C2_invariants_amended :
    (∀ a b : dfloat, Inv a → Inv b → Inv (dfloat.add a b)) ∧
    (∀ a b : dfloat, Inv a → Inv b → Inv (dfloat.sub a b)) ∧
    (∀ (fuel : Nat) (a b c : dfloat), Inv a → Inv b → dfloat.mulF fuel a b = some c → Inv c) ∧
    (∀ a b : dfloat, Inv a → Inv b →
      (a.sign = Sign.pos ∨ a.sign = Sign.neg → SCALE ≤ a.mant) → Inv (dfloat.div a b)) ∧
    (∀ s : String, Inv (dfloat.parse s)) ∧
    (∀ v : Nat, v < U64 → ∀ d, ofNatD v = some d → Inv d) ∧
    (∀ v : Int, v.natAbs < U64 → ∀ d, ofIntD v = some d → Inv d) := by
  refine ⟨add_inv, ?_, ?_, div_inv, parse_inv, ?_, ?_⟩
  · intro a b ha hb
    exact add_inv a b.neg ha (neg_inv hb)
  · intro fuel a b c ha hb h
    exact mulF_inv ha hb h
  · intro v hv d hd
    exact (ofNatD_inv v hv).2 d hd
  · intro v hv d hd
    exact (ofIntD_inv v hv).2 d hd

/-- Witness for C2 at concrete inputs: 10+20, the denormal subtraction,
123*123, 1000/250 and the integer constructor at 123. -/
theorem C2_witness :
    Inv (dfloat.add (dfloat.parse "10") (dfloat.parse "20")) ∧
    Inv (dfloat.sub (dfloat.parse "1.1e-100") (dfloat.parse "1e-100")) ∧
    Inv ⟨Sign.pos, 151290000000000000, 4⟩ ∧
    Inv (dfloat.div (dfloat.parse "1000") (dfloat.parse "250")) ∧
    (∀ d, ofNatD 123 = some d → Inv d) :=
  ⟨C2_invariants_amended.1 _ _ (by decide) (by decide),
   C2_invariants_amended.2.1 _ _ (by decide) (by decide),
   C2_invariants_amended.2.2.1 64 (dfloat.parse "123") (dfloat.parse "123") _
     (by decide) (by decide) (by decide),
   C2_invariants_amended.2.2.2.1 _ _ (by decide) (by decide) (by decide),
   fun d hd => C2_invariants_amended.2.2.2.2.2.1 123 (by norm_num [U64]) d hd⟩

/-- C1: the right-shift of biguint does NOT shift by single bits.  The
helper `_rightShiftOneWord` that `operator>>` calls for whole words has no
definition anywhere in the source, and the defined `_rightShiftOneBit`
(biguint.hpp lines 437-445) moves whole words — its body is
`words[i] = words[i + 1]` — despite its name and despite the one-bit body
of its mirror `_leftShiftOneBit`.  Consequently `x >> 1` on the two-word
value 2 yields 0, not `floor(2 / 2) = 1` as the claim (and the intent of
the code) requires. -/
theorem C1_rightShift_word_bug :
    bshr [2, 0] 1 = [0, 0] ∧ wordsVal (bshr [2, 0] 1) ≠ wordsVal [2, 0] / 2 ^ 1 := by
  constructor
  · decide
  · decide

/-- C7: biguint signals hard errors: dividing by the zero value fails with
the DivideByZero condition and indexing at or past the width fails with
the OutOfRange condition; both are `Except.error` results the caller must
handle, never sentinel values. -/
theorem C7_biguint_errors :
    (∀ a b : List Nat, bisZero b = true → bdiv a b = Except.error BigErr.divideByZero) ∧
    (∀ (l : List Nat) (i : Nat), l.length ≤ i → bindex l i = Except.error BigErr.outOfRange) := by
  constructor
  · intro a b h
    rw [bdiv, if_pos h]
  · intro l i h
    rw [bindex, if_pos h]

/-- Witness for C7 at the concrete inputs `a / 0` and `a[2]` on width 2. -/
theorem C7_witness :
    bdiv [7, 0] [0, 0] = Except.error BigErr.divideByZero ∧
    bindex [7, 0] 2 = Except.error BigErr.outOfRange :=
  ⟨C7_biguint_errors.1 [7, 0] [0, 0] (by decide),
   C7_biguint_errors.2 [7, 0] 2 (by decide)⟩

end Xu

namespace Xu

theorem u32_pos : 0 < U32 := by norm_num [U32]

theorem wordsVal_lt : ∀ {l : List Nat}, wvalid l → wordsVal l < U32 ^ l.length := by
  intro l
  induction l with
  | nil => intro _; simp [wordsVal]
  | cons a as ih =>
    intro hv
    have ha : a < U32 := hv a (List.mem_cons_self a as)
    have has : wvalid as := fun x hx => hv x (List.mem_cons_of_mem a hx)
    have := ih has
    rw [wordsVal]
    simp only [List.length_cons, pow_succ]
    calc a + U32 * wordsVal as < U32 + U32 * wordsVal as := by omega
    _ = U32 * (wordsVal as + 1) := by ring
    _ ≤ U32 * U32 ^ as.length := Nat.mul_le_mul_left U32 (by omega)
    _ = U32 ^ as.length * U32 := by ring

theorem wordsVal_replicate_zero (n : Nat) : wordsVal (List.replicate n 0) = 0 := by
  induction n with
  | zero => rfl
  | succ k ih =>
    rw [List.replicate_succ, wordsVal, ih]
    simp

theorem mod_u32_sub {x : Nat} (h1 : U32 ≤ x) (h2 : x < 2 * U32) : x % U32 = x - U32 := by
  rw [Nat.mod_eq_sub_mod h1, Nat.mod_eq_of_lt (by omega)]

theorem addCarry_exact {a b c : Nat} (ha : a < U32) (hb : b < U32) (hc : c < U32) :
    (addCarry a b c).2 + U32 * (addCarry a b c).1 = a + b + c ∧
      (addCarry a b c).2 < U32 ∧ (addCarry a b c).1 ≤ 2 := by
  simp only [addCarry]
  rcases Nat.lt_or_ge (a + b) U32 with h1 | h1
  · rw [Nat.mod_eq_of_lt h1]
    rcases Nat.lt_or_ge (a + b + c) U32 with h2 | h2
    · rw [Nat.mod_eq_of_lt h2]
      split_ifs <;> refine ⟨by omega, by omega, by omega⟩
    · rw [mod_u32_sub h2 (by omega)]
      split_ifs <;> refine ⟨by omega, by omega, by omega⟩
  · rw [mod_u32_sub h1 (by omega)]
    rcases Nat.lt_or_ge (a + b - U32 + c) U32 with h2 | h2
    · rw [Nat.mod_eq_of_lt h2]
      split_ifs <;> refine ⟨by omega, by omega, by omega⟩
    · rw [mod_u32_sub h2 (by omega)]
      split_ifs <;> refine ⟨by omega, by omega, by omega⟩

theorem mod_mul_decomp {r m x n : Nat} (hr : r < m) (hn : 0 < n) :
    (r + m * x) % (m * n) = r + m * (x % n) := by
  conv_lhs => rw [show x = n * (x / n) + x % n from (Nat.div_add_mod x n).symm]
  rw [Nat.mul_add, ← Nat.add_assoc, Nat.mul_comm m (n * (x / n))]
  rw [show r + n * (x / n) * m + m * (x % n) = r + m * (x % n) + m * n * (x / n) by ring]
  rw [Nat.add_mul_mod_self_left]
  exact Nat.mod_eq_of_lt (by
    have hxn : x % n < n := Nat.mod_lt _ hn
    calc r + m * (x % n) < m + m * (x % n) := by omega
    _ = m * (x % n + 1) := by ring
    _ ≤ m * n := Nat.mul_le_mul_left m (by omega))

end Xu

namespace Xu

theorem baddAux_length : ∀ (c : Nat) (as bs : List Nat), as.length = bs.length →
    (baddAux c as bs).length = as.length := by
  intro c as
  induction as generalizing c with
  | nil => intro bs _; simp [baddAux]
  | cons a as' ih =>
    intro bs hl
    cases bs with
    | nil => simp at hl
    | cons b bs' =>
      rw [baddAux]
      simp only [List.length_cons]
      rw [ih _ bs' (by simpa using hl)]

theorem baddAux_valid : ∀ (c : Nat) (as bs : List Nat), wvalid (baddAux c as bs) := by
  intro c as
  induction as generalizing c with
  | nil => intro bs x hx; simp [baddAux] at hx
  | cons a as' ih =>
    intro bs x hx
    cases bs with
    | nil => simp [baddAux] at hx
    | cons b bs' =>
      rw [baddAux] at hx
      simp only [List.mem_cons] at hx
      rcases hx with he | hm
      · rw [he]
        show (addCarry a b c).2 < U32
        rw [addCarry]
        exact Nat.mod_lt _ u32_pos
      · exact ih _ bs' x hm

theorem baddAux_val : ∀ (c : Nat) (as bs : List Nat), as.length = bs.length →
    wvalid as → wvalid bs → c < U32 →
    wordsVal (baddAux c as bs) = (c + wordsVal as + wordsVal bs) % U32 ^ as.length := by
  intro c as
  induction as generalizing c with
  | nil => intro bs _ _ _ _; simp [baddAux, wordsVal, Nat.mod_one]
  | cons a as' ih =>
    intro bs hl hva hvb hc
    cases bs with
    | nil => simp at hl
    | cons b bs' =>
      have ha : a < U32 := hva a (List.mem_cons_self _ _)
      have hb : b < U32 := hvb b (List.mem_cons_self _ _)
      have hva' : wvalid as' := fun x hx => hva x (List.mem_cons_of_mem _ hx)
      have hvb' : wvalid bs' := fun x hx => hvb x (List.mem_cons_of_mem _ hx)
      have hE := addCarry_exact ha hb hc
      have h2U : 2 < U32 := by norm_num [U32]
      rw [baddAux, wordsVal]
      rw [ih (addCarry a b c).1 bs' (by simpa using hl) hva' hvb' (by omega)]
      simp only [wordsVal, List.length_cons]
      rw [pow_succ, Nat.mul_comm (U32 ^ as'.length) U32]
      rw [show c + (a + U32 * wordsVal as') + (b + U32 * wordsVal bs') =
        (addCarry a b c).2 + U32 * ((addCarry a b c).1 + wordsVal as' + wordsVal bs') by
          calc c + (a + U32 * wordsVal as') + (b + U32 * wordsVal bs')
              = (a + b + c) + U32 * wordsVal as' + U32 * wordsVal bs' := by ring
          _ = ((addCarry a b c).2 + U32 * (addCarry a b c).1) + U32 * wordsVal as' +
              U32 * wordsVal bs' := by rw [hE.1]
          _ = (addCarry a b c).2 +
              U32 * ((addCarry a b c).1 + wordsVal as' + wordsVal bs') := by ring]
      rw [mod_mul_decomp hE.2.1 (Nat.pos_pow_of_pos _ u32_pos)]

end Xu

namespace Xu

theorem badd_val {a b : List Nat} (hl : a.length = b.length) (hva : wvalid a)
    (hvb : wvalid b) :
    wordsVal (badd a b) = (wordsVal a + wordsVal b) % U32 ^ a.length := by
  rw [badd, baddAux_val 0 a b hl hva hvb u32_pos]
  ring_nf

theorem badd_length {a b : List Nat} (hl : a.length = b.length) :
    (badd a b).length = a.length := baddAux_length 0 a b hl

theorem badd_valid (a b : List Nat) : wvalid (badd a b) := baddAux_valid 0 a b

theorem bnot_length (l : List Nat) : (bnot l).length = l.length := by
  rw [bnot, List.length_map]

theorem bnot_valid (l : List Nat) : wvalid (bnot l) := by
  intro x hx
  rw [bnot, List.mem_map] at hx
  rcases hx with ⟨y, _, he⟩
  rw [← he]
  have : 0 < U32 := u32_pos
  omega

theorem bnot_val_add : ∀ {l : List Nat}, wvalid l →
    wordsVal (bnot l) + wordsVal l + 1 = U32 ^ l.length := by
  intro l
  induction l with
  | nil => intro _; simp [bnot, wordsVal]
  | cons a as ih =>
    intro hv
    have ha : a < U32 := hv a (List.mem_cons_self _ _)
    have hva : wvalid as := fun x hx => hv x (List.mem_cons_of_mem _ hx)
    rw [bnot] at ih ⊢
    rw [List.map_cons, wordsVal, wordsVal]
    simp only [List.length_cons, pow_succ]
    rw [← ih hva]
    have h32 : U32 = 4294967296 := rfl
    rw [h32] at ha ⊢
    omega

theorem ofU32_val (w v : Nat) : wordsVal (ofU32 w v) = v := by
  rw [ofU32, wordsVal, wordsVal_replicate_zero]
  ring_nf

theorem ofU32_length {w : Nat} (hw : 1 ≤ w) (v : Nat) : (ofU32 w v).length = w := by
  rw [ofU32]
  simp only [List.length_cons, List.length_replicate]
  omega

theorem ofU32_valid {w v : Nat} (hv : v < U32) : wvalid (ofU32 w v) := by
  intro x hx
  rw [ofU32] at hx
  rcases List.mem_cons.mp hx with he | hm
  · rw [he]; exact hv
  · rw [List.eq_of_mem_replicate hm]; exact u32_pos

theorem bsub_val {a b : List Nat} (hl : a.length = b.length) (hw : 1 ≤ a.length)
    (hva : wvalid a) (hvb : wvalid b) :
    wordsVal (bsub a b) = (wordsVal a + (U32 ^ a.length - wordsVal b)) % U32 ^ a.length := by
  have hvb' : wordsVal b < U32 ^ b.length := wordsVal_lt hvb
  have h1U : 1 < U32 := by norm_num [U32]
  have hlb : (1:Nat) ≤ b.length := by omega
  have hinner_len : (badd (bnot b) (ofU32 b.length 1)).length = b.length := by
    rw [badd_length]
    · exact bnot_length b
    · rw [bnot_length, ofU32_length hlb]
  have hnotadd := bnot_val_add hvb
  have hinner : wordsVal (badd (bnot b) (ofU32 b.length 1)) =
      (U32 ^ b.length - wordsVal b) % U32 ^ b.length := by
    rw [badd_val (by rw [bnot_length, ofU32_length hlb]) (bnot_valid b) (ofU32_valid h1U)]
    rw [ofU32_val, bnot_length]
    congr 1
    omega
  rw [bsub]
  rw [badd_val (by rw [hinner_len]; omega) hva (badd_valid _ _)]
  rw [hinner]
  rw [← hl]
  conv_lhs => rw [Nat.add_mod, Nat.mod_mod_of_dvd _ (dvd_refl _), ← Nat.add_mod]

end Xu

namespace Xu

/-- Replacing the word at a valid index changes the array value by the
positionally weighted difference of old and new word. -/
theorem wordsVal_set : ∀ (l : List Nat) (k v : Nat), k < l.length →
    wordsVal (l.set k v) + l.getD k 0 * U32 ^ k = wordsVal l + v * U32 ^ k := by
  intro l
  induction l with
  | nil => intro k v hk; simp at hk
  | cons a as ih =>
    intro k v hk
    cases k with
    | zero =>
      simp only [List.set_cons_zero, List.getD_cons_zero, wordsVal, pow_zero]
      ring
    | succ j =>
      simp only [List.set_cons_succ, List.getD_cons_succ, wordsVal, pow_succ]
      have hj : j < as.length := by
        simp only [List.length_cons] at hk
        omega
      calc a + U32 * wordsVal (as.set j v) + as.getD j 0 * (U32 ^ j * U32)
          = a + U32 * (wordsVal (as.set j v) + as.getD j 0 * U32 ^ j) := by ring
        _ = a + U32 * (wordsVal as + v * U32 ^ j) := by rw [ih j v hj]
        _ = a + U32 * wordsVal as + v * (U32 ^ j * U32) := by ring

/-- Setting a word to a 32-bit value keeps the array valid. -/
theorem wvalid_set {l : List Nat} (hv : wvalid l) {v : Nat} (hvv : v < U32) (k : Nat) :
    wvalid (l.set k v) := by
  intro x hx
  rcases List.mem_or_eq_of_mem_set hx with hm | he
  · exact hv x hm
  · rw [he]; exact hvv

/-- Every word read with default 0 from a valid array is a 32-bit value. -/
theorem getD_lt : ∀ {l : List Nat}, wvalid l → ∀ k, l.getD k 0 < U32 := by
  intro l
  induction l with
  | nil => intro _ k; simp only [List.getD_nil]; exact u32_pos
  | cons a as ih =>
    intro hv k
    have ha : a < U32 := hv a (List.mem_cons_self _ _)
    have has : wvalid as := fun x hx => hv x (List.mem_cons_of_mem _ hx)
    cases k with
    | zero => simpa using ha
    | succ j => simpa using ih has j

/-- Reading word k of a valid array extracts base-2^32 digit k of its value. -/
theorem getD_val : ∀ {l : List Nat}, wvalid l → ∀ k,
    l.getD k 0 = wordsVal l / U32 ^ k % U32 := by
  intro l
  induction l with
  | nil => intro _ k; simp [wordsVal]
  | cons a as ih =>
    intro hv k
    have ha : a < U32 := hv a (List.mem_cons_self _ _)
    have has : wvalid as := fun x hx => hv x (List.mem_cons_of_mem _ hx)
    cases k with
    | zero =>
      simp only [List.getD_cons_zero, wordsVal, pow_zero, Nat.div_one]
      rw [Nat.add_mul_mod_self_left, Nat.mod_eq_of_lt ha]
    | succ j =>
      simp only [List.getD_cons_succ, wordsVal]
      rw [ih has j]
      congr 1
      rw [pow_succ, Nat.mul_comm (U32 ^ j) U32, ← Nat.div_div_eq_div_mul]
      congr 1
      rw [Nat.add_mul_div_left _ _ u32_pos, Nat.div_eq_of_lt ha, Nat.zero_add]

/-- Two valid arrays of the same width with the same value are equal. -/
theorem wordsVal_inj : ∀ {a : List Nat} {b : List Nat}, wvalid a → wvalid b →
    a.length = b.length → wordsVal a = wordsVal b → a = b := by
  intro a
  induction a with
  | nil =>
    intro b _ _ hl _
    cases b with
    | nil => rfl
    | cons x xs => simp at hl
  | cons x xs ih =>
    intro b hva hvb hl hv
    cases b with
    | nil => simp at hl
    | cons y ys =>
      have hx : x < U32 := hva x (List.mem_cons_self _ _)
      have hy : y < U32 := hvb y (List.mem_cons_self _ _)
      have hvxs : wvalid xs := fun z hz => hva z (List.mem_cons_of_mem _ hz)
      have hvys : wvalid ys := fun z hz => hvb z (List.mem_cons_of_mem _ hz)
      simp only [List.length_cons] at hl
      rw [wordsVal, wordsVal] at hv
      have h32 : U32 = 4294967296 := rfl
      rw [h32] at hx hy hv
      have hxy : x = y ∧ wordsVal xs = wordsVal ys := by omega
      rw [hxy.1, ih hvxs hvys (by omega) hxy.2]

end Xu

namespace Xu

theorem bigVal_append : ∀ (u v : List Nat),
    bigVal (u ++ v) = bigVal u * U32 ^ v.length + bigVal v := by
  intro u v
  induction u with
  | nil => simp [bigVal]
  | cons x xs ih =>
    show bigVal (x :: (xs ++ v)) = _
    rw [bigVal, bigVal, ih, List.length_append, pow_add]
    ring

theorem bigVal_lt : ∀ {l : List Nat}, wvalid l → bigVal l < U32 ^ l.length := by
  intro l
  induction l with
  | nil => intro _; simp [bigVal]
  | cons a as ih =>
    intro hv
    have ha : a < U32 := hv a (List.mem_cons_self _ _)
    have has : wvalid as := fun x hx => hv x (List.mem_cons_of_mem _ hx)
    have h1 := ih has
    rw [bigVal, List.length_cons, pow_succ]
    calc a * U32 ^ as.length + bigVal as < a * U32 ^ as.length + U32 ^ as.length := by omega
      _ = (a + 1) * U32 ^ as.length := by ring
      _ ≤ U32 * U32 ^ as.length := Nat.mul_le_mul_right _ (by omega)
      _ = U32 ^ as.length * U32 := by ring

/-- The little-endian value equals the big-endian value of the reverse. -/
theorem wordsVal_eq_bigVal_reverse : ∀ (l : List Nat),
    wordsVal l = bigVal l.reverse := by
  intro l
  induction l with
  | nil => rfl
  | cons a as ih =>
    rw [wordsVal, List.reverse_cons, bigVal_append, ih]
    show a + U32 * bigVal as.reverse = bigVal as.reverse * U32 ^ 1 + (a * U32 ^ 0 + 0)
    ring

/-- Trichotomy of the most-significant-first comparison loop of
biguint::_comparedTo against the word-list values. -/
theorem bcompAux_spec : ∀ (u v : List Nat), wvalid u → wvalid v → u.length = v.length →
    (bigVal u < bigVal v ∧ bcompAux u v = -1) ∨
    (bigVal u = bigVal v ∧ bcompAux u v = 0) ∨
    (bigVal v < bigVal u ∧ bcompAux u v = 1) := by
  intro u
  induction u with
  | nil =>
    intro v _ _ hl
    cases v with
    | nil => exact Or.inr (Or.inl ⟨rfl, rfl⟩)
    | cons y ys => simp at hl
  | cons a as ih =>
    intro v hu hv hl
    cases v with
    | nil => simp at hl
    | cons b bs =>
      have ha : a < U32 := hu a (List.mem_cons_self _ _)
      have hb : b < U32 := hv b (List.mem_cons_self _ _)
      have hvas : wvalid as := fun x hx => hu x (List.mem_cons_of_mem _ hx)
      have hvbs : wvalid bs := fun x hx => hv x (List.mem_cons_of_mem _ hx)
      simp only [List.length_cons] at hl
      have hll : as.length = bs.length := by omega
      have hBas : bigVal as < U32 ^ as.length := bigVal_lt hvas
      have hBbs : bigVal bs < U32 ^ bs.length := bigVal_lt hvbs
      rw [bigVal, bigVal, ← hll]
      rw [← hll] at hBbs
      rcases Nat.lt_trichotomy a b with hab | hab | hab
      · refine Or.inl ⟨?_, by rw [bcompAux, if_neg (by omega), if_pos hab]⟩
        calc a * U32 ^ as.length + bigVal as < (a + 1) * U32 ^ as.length := by
              rw [Nat.add_mul, Nat.one_mul]; omega
          _ ≤ b * U32 ^ as.length := Nat.mul_le_mul_right _ (by omega)
          _ ≤ b * U32 ^ as.length + bigVal bs := Nat.le_add_right _ _
      · subst hab
        have hstep : bcompAux (a :: as) (a :: bs) = bcompAux as bs := by
          rw [bcompAux, if_neg (Nat.lt_irrefl a), if_neg (Nat.lt_irrefl a)]
        rcases ih bs hvas hvbs hll with ⟨h1, h2⟩ | ⟨h1, h2⟩ | ⟨h1, h2⟩
        · exact Or.inl ⟨by omega, by rw [hstep, h2]⟩
        · exact Or.inr (Or.inl ⟨by omega, by rw [hstep, h2]⟩)
        · exact Or.inr (Or.inr ⟨by omega, by rw [hstep, h2]⟩)
      · refine Or.inr (Or.inr ⟨?_, by rw [bcompAux, if_pos hab]⟩)
        calc b * U32 ^ as.length + bigVal bs < (b + 1) * U32 ^ as.length := by
              rw [Nat.add_mul, Nat.one_mul]; omega
          _ ≤ a * U32 ^ as.length := Nat.mul_le_mul_right _ (by omega)
          _ ≤ a * U32 ^ as.length + bigVal as := Nat.le_add_right _ _

/-- Trichotomy of biguint::_comparedTo against the little-endian values. -/
theorem bcomp_spec {a b : List Nat} (hva : wvalid a) (hvb : wvalid b)
    (hl : a.length = b.length) :
    (wordsVal a < wordsVal b ∧ bcomp a b = -1) ∨
    (wordsVal a = wordsVal b ∧ bcomp a b = 0) ∨
    (wordsVal b < wordsVal a ∧ bcomp a b = 1) := by
  have hva' : wvalid a.reverse := fun x hx => hva x (List.mem_reverse.mp hx)
  have hvb' : wvalid b.reverse := fun x hx => hvb x (List.mem_reverse.mp hx)
  have hl' : a.reverse.length = b.reverse.length := by
    rw [List.length_reverse, List.length_reverse, hl]
  rw [bcomp, wordsVal_eq_bigVal_reverse, wordsVal_eq_bigVal_reverse]
  exact bcompAux_spec a.reverse b.reverse hva' hvb' hl'

/-- biguint::operator<= decides value order on valid equal-width arrays. -/
theorem bleB_iff {a b : List Nat} (hva : wvalid a) (hvb : wvalid b)
    (hl : a.length = b.length) :
    bleB a b = true ↔ wordsVal a ≤ wordsVal b := by
  rcases bcomp_spec hva hvb hl with ⟨h1, h2⟩ | ⟨h1, h2⟩ | ⟨h1, h2⟩ <;>
    rw [bleB, h2] <;> simp <;> omega

end Xu

namespace Xu

/-- Bit table of the 32-bit mask `~(1u << bi)` built by biguint::_setBit. -/
theorem mask_testBit : ∀ bi, bi < 32 → ∀ i, i < 32 →
    Nat.testBit ((U32 - 1) - 2 ^ bi) i = decide (¬ i = bi) := by decide

/-- ANDing with the _setBit mask is the identity on a 32-bit word whose
target bit is already clear. -/
theorem land_mask_id (x bi : Nat) (hx : x < U32) (hbi : bi < 32)
    (hbit : x / 2 ^ bi % 2 = 0) :
    Nat.land x ((U32 - 1) - 2 ^ bi) = x := by
  apply Nat.eq_of_testBit_eq
  intro i
  show (x &&& ((U32 - 1) - 2 ^ bi)).testBit i = x.testBit i
  rw [Nat.testBit_and]
  rcases Nat.lt_or_ge i 32 with hi | hi
  · rw [mask_testBit bi hbi i hi]
    by_cases hib : i = bi
    · subst hib
      have hfx : x.testBit i = false := by
        rw [Nat.testBit_to_div_mod, hbit]
        simp
      rw [hfx]
      simp
    · simp [hib]
  · have hfx : x.testBit i = false :=
      Nat.testBit_lt_two_pow (lt_of_lt_of_le hx (Nat.pow_le_pow_right (by norm_num) hi))
    rw [hfx]
    simp

/-- ORing a power of two into a number decomposed around that bit position. -/
theorem lor_decomp_bit (q r bi : Nat) (hr : r < 2 ^ bi) :
    Nat.lor (2 ^ bi * (2 * q) + r) (2 ^ bi) = 2 ^ bi * (2 * q + 1) + r := by
  apply Nat.eq_of_testBit_eq
  intro j
  show ((2 ^ bi * (2 * q) + r) ||| 2 ^ bi).testBit j = _
  rw [Nat.testBit_or, Nat.testBit_mul_pow_two_add _ hr, Nat.testBit_mul_pow_two_add _ hr,
      Nat.testBit_two_pow]
  rcases Nat.lt_trichotomy j bi with hj | hj | hj
  · rw [if_pos hj, if_pos hj]
    have hd : decide (bi = j) = false := by simp; omega
    rw [hd, Bool.or_false]
  · subst hj
    rw [if_neg (lt_irrefl j), if_neg (lt_irrefl j), Nat.sub_self]
    have h1 : Nat.testBit (2 * q) 0 = false := by
      rw [Nat.testBit_to_div_mod, pow_zero, Nat.div_one, decide_eq_false_iff_not]
      omega
    have h2 : Nat.testBit (2 * q + 1) 0 = true := by
      rw [Nat.testBit_to_div_mod, pow_zero, Nat.div_one, decide_eq_true_eq]
      omega
    rw [h1, h2]
    simp
  · rw [if_neg (by omega), if_neg (by omega)]
    have hd : decide (bi = j) = false := by simp; omega
    rw [hd, Bool.or_false]
    have hj1 : j - bi = (j - bi - 1) + 1 := by omega
    rw [hj1, Nat.testBit_succ, Nat.testBit_succ]
    congr 1
    omega

/-- ORing `1 << bi` into a word whose bit bi is clear adds `2 ^ bi`. -/
theorem lor_two_pow_of_clear (x bi : Nat) (hbit : x / 2 ^ bi % 2 = 0) :
    Nat.lor x (2 ^ bi) = x + 2 ^ bi := by
  have hp : 0 < 2 ^ bi := Nat.pos_pow_of_pos _ (by norm_num)
  have hr : x % 2 ^ bi < 2 ^ bi := Nat.mod_lt _ hp
  have hdm := Nat.div_add_mod x (2 ^ (bi + 1))
  have hd : x % 2 ^ (bi + 1) = x % 2 ^ bi := by
    rw [pow_succ, Nat.mod_mul, hbit, Nat.mul_zero, Nat.add_zero]
  rw [hd] at hdm
  have hx1 : x = 2 ^ bi * (2 * (x / 2 ^ (bi + 1))) + x % 2 ^ bi := by
    conv_lhs => rw [← hdm]
    rw [pow_succ]
    ring
  calc Nat.lor x (2 ^ bi)
      = Nat.lor (2 ^ bi * (2 * (x / 2 ^ (bi + 1))) + x % 2 ^ bi) (2 ^ bi) := by rw [← hx1]
    _ = 2 ^ bi * (2 * (x / 2 ^ (bi + 1)) + 1) + x % 2 ^ bi := lor_decomp_bit _ _ _ hr
    _ = x + 2 ^ bi := by
        conv_rhs => rw [hx1]
        ring

/-- ORing a one-bit value into an even word is plain addition. -/
theorem lor_even (y c : Nat) (hy : y % 2 = 0) (hc : c ≤ 1) : Nat.lor y c = y + c := by
  rcases Nat.le_one_iff_eq_zero_or_eq_one.mp hc with h0 | h1
  · subst h0
    show y ||| 0 = y + 0
    simp
  · subst h1
    have := lor_two_pow_of_clear y 0 (by simpa using hy)
    simpa using this

end Xu

namespace Xu

/-- biguint::_getBit extracts bit `at` of the array value. -/
theorem getBit_val {l : List Nat} (hv : wvalid l) (at_ : Nat) :
    getBit l at_ = wordsVal l / 2 ^ at_ % 2 := by
  have hbi : at_ % 32 < 32 := Nat.mod_lt _ (by norm_num)
  rw [getBit, getD_val hv (at_ / 32)]
  have hA : U32 ^ (at_ / 32) = 2 ^ (32 * (at_ / 32)) := by
    rw [show U32 = 2 ^ 32 from rfl, ← pow_mul]
  rw [hA]
  rw [show U32 = 2 ^ (at_ % 32) * 2 ^ (32 - at_ % 32) by
    rw [← pow_add, show at_ % 32 + (32 - at_ % 32) = 32 from by omega]
    rfl]
  rw [Nat.mod_mul_right_div_self]
  rw [Nat.mod_mod_of_dvd _ (dvd_pow_self 2 (by omega : 32 - at_ % 32 ≠ 0))]
  rw [Nat.div_div_eq_div_mul, ← pow_add]
  rw [show 32 * (at_ / 32) + at_ % 32 = at_ from by omega]

/-- A _getBit result is a single bit. -/
theorem getBit_le_one (l : List Nat) (at_ : Nat) : getBit l at_ ≤ 1 := by
  rw [getBit]
  have := Nat.mod_lt (l.getD (at_ / 32) 0 / 2 ^ (at_ % 32)) (show 0 < 2 by norm_num)
  omega

/-- biguint::_setBit writing 1 into a clear bit position adds `2 ^ at` to
the value, keeps the array valid and preserves its width. -/
theorem setBit_one_val {l : List Nat} (hv : wvalid l) {at_ : Nat} (hat : at_ < 32 * l.length)
    (hbit : wordsVal l / 2 ^ at_ % 2 = 0) :
    wordsVal (setBit l at_ 1) = wordsVal l + 2 ^ at_ ∧ wvalid (setBit l at_ 1) ∧
      (setBit l at_ 1).length = l.length := by
  have hbi : at_ % 32 < 32 := Nat.mod_lt _ (by norm_num)
  have hwi : at_ / 32 < l.length := by omega
  have hx : l.getD (at_ / 32) 0 < U32 := getD_lt hv (at_ / 32)
  have hxbit : l.getD (at_ / 32) 0 / 2 ^ (at_ % 32) % 2 = 0 := by
    have := getBit_val hv at_
    rw [getBit] at this
    omega
  have hland : Nat.land (l.getD (at_ / 32) 0) ((U32 - 1) - 2 ^ (at_ % 32)) =
      l.getD (at_ / 32) 0 := land_mask_id _ _ hx hbi hxbit
  have hlor : Nat.lor (l.getD (at_ / 32) 0) (2 ^ (at_ % 32)) =
      l.getD (at_ / 32) 0 + 2 ^ (at_ % 32) := lor_two_pow_of_clear _ _ hxbit
  have hlt : l.getD (at_ / 32) 0 + 2 ^ (at_ % 32) < U32 := by
    rw [← hlor]
    show (l.getD (at_ / 32) 0 ||| 2 ^ (at_ % 32)) < 2 ^ 32
    exact Nat.or_lt_two_pow hx (Nat.pow_lt_pow_right (by norm_num) hbi)
  have hpow : 2 ^ (at_ % 32) * U32 ^ (at_ / 32) = 2 ^ at_ := by
    rw [show U32 = 2 ^ 32 from rfl, ← pow_mul, ← pow_add]
    congr 1
    omega
  simp only [setBit]
  rw [if_neg (by norm_num : ¬(1:Nat) = 0), hland, hlor]
  refine ⟨?_, wvalid_set hv hlt _, by simp⟩
  have hset := wordsVal_set l (at_ / 32) (l.getD (at_ / 32) 0 + 2 ^ (at_ % 32)) hwi
  rw [Nat.add_mul] at hset
  omega

/-- biguint::_setBit writing 0 into a clear bit position leaves the value
unchanged, keeps the array valid and preserves its width. -/
theorem setBit_zero_val {l : List Nat} (hv : wvalid l) {at_ : Nat} (hat : at_ < 32 * l.length)
    (hbit : wordsVal l / 2 ^ at_ % 2 = 0) :
    wordsVal (setBit l at_ 0) = wordsVal l ∧ wvalid (setBit l at_ 0) ∧
      (setBit l at_ 0).length = l.length := by
  have hbi : at_ % 32 < 32 := Nat.mod_lt _ (by norm_num)
  have hwi : at_ / 32 < l.length := by omega
  have hx : l.getD (at_ / 32) 0 < U32 := getD_lt hv (at_ / 32)
  have hxbit : l.getD (at_ / 32) 0 / 2 ^ (at_ % 32) % 2 = 0 := by
    have := getBit_val hv at_
    rw [getBit] at this
    omega
  have hland : Nat.land (l.getD (at_ / 32) 0) ((U32 - 1) - 2 ^ (at_ % 32)) =
      l.getD (at_ / 32) 0 := land_mask_id _ _ hx hbi hxbit
  simp only [setBit]
  rw [if_pos trivial, hland]
  refine ⟨?_, wvalid_set hv hx _, by simp⟩
  have hset := wordsVal_set l (at_ / 32) (l.getD (at_ / 32) 0) hwi
  omega

end Xu

namespace Xu

/-- OR with zero is the identity (Nat.lor form). -/
theorem lor_zero_right (x : Nat) : Nat.lor x 0 = x := by
  show x ||| 0 = x
  simp

/-- One step of _leftShiftOneBit: value doubles (plus the incoming carry)
modulo the width, words stay valid, width is preserved. -/
theorem bshl1Aux_spec : ∀ (l : List Nat) (carry : Nat), wvalid l → carry ≤ 1 →
    wordsVal (bshl1Aux carry l) = (2 * wordsVal l + carry) % U32 ^ l.length ∧
    wvalid (bshl1Aux carry l) ∧ (bshl1Aux carry l).length = l.length := by
  intro l
  induction l with
  | nil =>
    intro carry _ hc
    refine ⟨?_, fun x hx => absurd hx (List.not_mem_nil x), rfl⟩
    simp [bshl1Aux, wordsVal, Nat.mod_one]
  | cons x xs ih =>
    intro carry hv hc
    have hx : x < U32 := hv x (List.mem_cons_self _ _)
    have hvxs : wvalid xs := fun z hz => hv z (List.mem_cons_of_mem _ hz)
    have h32 : U32 = 4294967296 := rfl
    have h31 : (2:Nat) ^ 31 = 2147483648 := by norm_num
    have heven : (x * 2) % U32 % 2 = 0 := by rw [h32]; omega
    rw [h32] at hx
    have hc' : x / 2 ^ 31 ≤ 1 := by rw [h31]; omega
    rcases ih (x / 2 ^ 31) hvxs hc' with ⟨hval, hvr, hlen⟩
    rw [bshl1Aux]
    refine ⟨?_, ?_, by simp only [List.length_cons, hlen]⟩
    · show Nat.lor ((x * 2) % U32) carry + U32 * wordsVal (bshl1Aux (x / 2 ^ 31) xs) =
        (2 * (x + U32 * wordsVal xs) + carry) % U32 ^ (x :: xs).length
      have hr : (x * 2) % U32 + carry < U32 := by rw [h32]; omega
      have hkey : 2 * (x + U32 * wordsVal xs) + carry =
          ((x * 2) % U32 + carry) + U32 * (x / 2 ^ 31 + 2 * wordsVal xs) := by
        rw [h31, h32]
        omega
      rw [hval, lor_even _ _ heven hc, List.length_cons,
          show U32 ^ (xs.length + 1) = U32 ^ xs.length * U32 from pow_succ U32 xs.length, hkey,
          Nat.mul_comm (U32 ^ xs.length) U32,
          mod_mul_decomp hr (Nat.pos_pow_of_pos _ u32_pos),
          Nat.add_comm (x / 2 ^ 31) (2 * wordsVal xs)]
    · intro z hz
      rcases List.mem_cons.mp hz with he | hm
      · rw [he, lor_even _ _ heven hc, h32]
        omega
      · exact hvr z hm

/-- Shifting left by one is _leftShiftOneBit. -/
theorem bshl_one (l : List Nat) : bshl l 1 = bshl1 l := rfl

/-- Word-wise OR with an array of zeros is the identity. -/
theorem zipWith_lor_zeros : ∀ (t : List Nat) (n : Nat), t.length ≤ n →
    List.zipWith Nat.lor t (List.replicate n 0) = t := by
  intro t
  induction t with
  | nil => intro n _; simp
  | cons x xs ih =>
    intro n hn
    cases n with
    | zero => simp at hn
    | succ m =>
      rw [List.replicate_succ, List.zipWith_cons_cons, lor_zero_right]
      rw [ih m (by simpa using hn)]

/-- ORing a single-bit biguint into an array with an even low word. -/
theorem bor_bit (x : Nat) (t : List Nat) (hx : x % 2 = 0) (bit : Nat) (hbit : bit ≤ 1) :
    bor (x :: t) (ofU32 (x :: t).length bit) = (x + bit) :: t := by
  rw [bor, ofU32]
  show List.zipWith Nat.lor (x :: t) (bit :: List.replicate ((x :: t).length - 1) 0) = _
  rw [List.zipWith_cons_cons, lor_even x bit hx hbit, zipWith_lor_zeros t _ (by simp)]

end Xu

namespace Xu

theorem two_lt_u32 : 2 < U32 := by norm_num [U32]

/-- The carry-propagation loop of biguint::operator* adds the carry at word
position k, modulo the width; excess carry past the top word is dropped. -/
theorem mulCarryAux_spec : ∀ (fuel : Nat) (res : List Nat) (k carry : Nat),
    wvalid res → fuel = res.length - k → carry < U32 →
    wordsVal (mulCarryAux fuel res k carry) =
      (wordsVal res + carry * U32 ^ k) % U32 ^ res.length ∧
    wvalid (mulCarryAux fuel res k carry) ∧
    (mulCarryAux fuel res k carry).length = res.length := by
  intro fuel
  induction fuel with
  | zero =>
    intro res k carry hv hf hc
    have hk : res.length ≤ k := by omega
    refine ⟨?_, hv, rfl⟩
    rw [show U32 ^ k = U32 ^ (k - res.length) * U32 ^ res.length by
      rw [← pow_add]; congr 1; omega]
    rw [← Nat.mul_assoc, Nat.add_mul_mod_self_right, Nat.mod_eq_of_lt (wordsVal_lt hv)]
    rfl
  | succ fuel ih =>
    intro res k carry hv hf hc
    have heq : mulCarryAux (fuel + 1) res k carry =
        if 0 < carry then
          mulCarryAux fuel (res.set k (addCarry (res.getD k 0) 0 carry).2) (k + 1)
            (addCarry (res.getD k 0) 0 carry).1
        else res := rfl
    by_cases hc0 : 0 < carry
    · rw [heq, if_pos hc0]
      have hk : k < res.length := by omega
      have hx : res.getD k 0 < U32 := getD_lt hv k
      rcases addCarry_exact hx u32_pos hc with ⟨hE, hs2, hs1⟩
      have hs1U : (addCarry (res.getD k 0) 0 carry).1 < U32 := by
        have := two_lt_u32
        omega
      have hv' : wvalid (res.set k (addCarry (res.getD k 0) 0 carry).2) :=
        wvalid_set hv hs2 k
      have hlen' : (res.set k (addCarry (res.getD k 0) 0 carry).2).length = res.length := by
        simp
      have hset := wordsVal_set res k (addCarry (res.getD k 0) 0 carry).2 hk
      rcases ih (res.set k (addCarry (res.getD k 0) 0 carry).2) (k + 1)
          (addCarry (res.getD k 0) 0 carry).1 hv' (by rw [hlen']; omega) hs1U with
        ⟨hval, hvr, hlr⟩
      refine ⟨?_, hvr, by rw [hlr, hlen']⟩
      rw [hval, hlen']
      congr 1
      have h1 : (wordsVal (res.set k (addCarry (res.getD k 0) 0 carry).2) +
            (addCarry (res.getD k 0) 0 carry).1 * U32 ^ (k + 1)) + res.getD k 0 * U32 ^ k =
          (wordsVal res + carry * U32 ^ k) + res.getD k 0 * U32 ^ k := by
        calc (wordsVal (res.set k (addCarry (res.getD k 0) 0 carry).2) +
              (addCarry (res.getD k 0) 0 carry).1 * U32 ^ (k + 1)) + res.getD k 0 * U32 ^ k
            = (wordsVal (res.set k (addCarry (res.getD k 0) 0 carry).2) +
              res.getD k 0 * U32 ^ k) +
              (addCarry (res.getD k 0) 0 carry).1 * (U32 ^ k * U32) := by
              rw [show U32 ^ (k + 1) = U32 ^ k * U32 from pow_succ U32 k]; ring
          _ = (wordsVal res + (addCarry (res.getD k 0) 0 carry).2 * U32 ^ k) +
              (addCarry (res.getD k 0) 0 carry).1 * (U32 ^ k * U32) := by rw [hset]
          _ = wordsVal res + ((addCarry (res.getD k 0) 0 carry).2 +
              U32 * (addCarry (res.getD k 0) 0 carry).1) * U32 ^ k := by ring
          _ = wordsVal res + (res.getD k 0 + 0 + carry) * U32 ^ k := by rw [hE]
          _ = (wordsVal res + carry * U32 ^ k) + res.getD k 0 * U32 ^ k := by ring
      exact Nat.add_right_cancel h1
    · rw [heq, if_neg hc0]
      have hcz : carry = 0 := by omega
      subst hcz
      refine ⟨?_, hv, rfl⟩
      rw [Nat.zero_mul, Nat.add_zero, Nat.mod_eq_of_lt (wordsVal_lt hv)]

end Xu

namespace Xu

/-- One partial-product accumulation of biguint::operator* adds
`a * b * 2^(32 k)` to the result value, modulo the width. -/
theorem mulAddAt_spec {res : List Nat} (hv : wvalid res) {k : Nat} (hk : k < res.length)
    {a b : Nat} (ha : a < U32) (hb : b < U32) :
    wordsVal (mulAddAt res k a b) = (wordsVal res + a * b * U32 ^ k) % U32 ^ res.length ∧
    wvalid (mulAddAt res k a b) ∧ (mulAddAt res k a b).length = res.length := by
  have h32 : U32 = 4294967296 := rfl
  have hx : res.getD k 0 < U32 := getD_lt hv k
  have hmod : a * b % U32 < U32 := Nat.mod_lt _ u32_pos
  rcases addCarry_exact hx hmod (show (0:Nat) < U32 from u32_pos) with ⟨hE, hs2, hs1⟩
  have hs1' : (addCarry (res.getD k 0) (a * b % U32) 0).1 ≤ 1 := by
    rw [h32] at *
    omega
  have hdivb : a * b / 4294967296 ≤ 4294967294 := by
    have hab : a * b ≤ 4294967295 * 4294967295 := by
      have ha' := ha
      have hb' := hb
      rw [h32] at ha' hb'
      exact Nat.mul_le_mul (by omega) (by omega)
    have h2 := Nat.div_le_div_right (c := (4294967296:Nat)) hab
    norm_num at h2
    omega
  have hcarry : a * b / U32 + (addCarry (res.getD k 0) (a * b % U32) 0).1 < U32 := by
    rw [show a * b / U32 = a * b / 4294967296 from by rw [h32]]
    omega
  have hv' : wvalid (res.set k (addCarry (res.getD k 0) (a * b % U32) 0).2) :=
    wvalid_set hv hs2 k
  have hlen' : (res.set k (addCarry (res.getD k 0) (a * b % U32) 0).2).length = res.length := by
    simp
  have hset := wordsVal_set res k (addCarry (res.getD k 0) (a * b % U32) 0).2 hk
  have hrun := mulCarryAux_spec ((res.set k (addCarry (res.getD k 0) (a * b % U32) 0).2).length
      - (k + 1)) (res.set k (addCarry (res.getD k 0) (a * b % U32) 0).2) (k + 1)
      (a * b / U32 + (addCarry (res.getD k 0) (a * b % U32) 0).1) hv' rfl hcarry
  rcases hrun with ⟨hval, hvr, hlr⟩
  have hgoal : mulAddAt res k a b = mulCarryAux
      ((res.set k (addCarry (res.getD k 0) (a * b % U32) 0).2).length - (k + 1))
      (res.set k (addCarry (res.getD k 0) (a * b % U32) 0).2) (k + 1)
      (a * b / U32 + (addCarry (res.getD k 0) (a * b % U32) 0).1) := rfl
  rw [hgoal]
  refine ⟨?_, hvr, by rw [hlr, hlen']⟩
  rw [hval, hlen']
  congr 1
  have h1 : (wordsVal (res.set k (addCarry (res.getD k 0) (a * b % U32) 0).2) +
        (a * b / U32 + (addCarry (res.getD k 0) (a * b % U32) 0).1) * U32 ^ (k + 1)) +
        res.getD k 0 * U32 ^ k =
      (wordsVal res + a * b * U32 ^ k) + res.getD k 0 * U32 ^ k := by
    calc (wordsVal (res.set k (addCarry (res.getD k 0) (a * b % U32) 0).2) +
          (a * b / U32 + (addCarry (res.getD k 0) (a * b % U32) 0).1) * U32 ^ (k + 1)) +
          res.getD k 0 * U32 ^ k
        = (wordsVal (res.set k (addCarry (res.getD k 0) (a * b % U32) 0).2) +
          res.getD k 0 * U32 ^ k) +
          (a * b / U32 + (addCarry (res.getD k 0) (a * b % U32) 0).1) * (U32 ^ k * U32) := by
          rw [show U32 ^ (k + 1) = U32 ^ k * U32 from pow_succ U32 k]; ring
      _ = (wordsVal res + (addCarry (res.getD k 0) (a * b % U32) 0).2 * U32 ^ k) +
          (a * b / U32 + (addCarry (res.getD k 0) (a * b % U32) 0).1) * (U32 ^ k * U32) := by
          rw [hset]
      _ = wordsVal res + ((addCarry (res.getD k 0) (a * b % U32) 0).2 +
          U32 * (addCarry (res.getD k 0) (a * b % U32) 0).1) * U32 ^ k +
          (U32 * (a * b / U32)) * U32 ^ k := by ring
      _ = wordsVal res + (res.getD k 0 + a * b % U32 + 0) * U32 ^ k +
          (U32 * (a * b / U32)) * U32 ^ k := by rw [hE]
      _ = wordsVal res + (U32 * (a * b / U32) + a * b % U32) * U32 ^ k +
          res.getD k 0 * U32 ^ k := by ring
      _ = wordsVal res + a * b * U32 ^ k + res.getD k 0 * U32 ^ k := by
          rw [Nat.div_add_mod]
  exact Nat.add_right_cancel h1

end Xu

namespace Xu

/-- The inner loop of biguint::operator* accumulates `a_i * value(bs)` at
word offset k, modulo the result width; skipped high partial products are
exactly the ones that vanish modulo the width. -/
theorem bmulInnerAux_spec : ∀ (bs : List Nat) (k : Nat) (res : List Nat) (a_i : Nat),
    wvalid res → wvalid bs → a_i < U32 →
    wordsVal (bmulInnerAux a_i k bs res) =
      (wordsVal res + a_i * wordsVal bs * U32 ^ k) % U32 ^ res.length ∧
    wvalid (bmulInnerAux a_i k bs res) ∧
    (bmulInnerAux a_i k bs res).length = res.length := by
  intro bs
  induction bs with
  | nil =>
    intro k res a_i hv _ _
    refine ⟨?_, hv, rfl⟩
    rw [show wordsVal [] = 0 from rfl, Nat.mul_zero, Nat.zero_mul, Nat.add_zero,
      Nat.mod_eq_of_lt (wordsVal_lt hv)]
    rfl
  | cons bj rest ih =>
    intro k res a_i hv hvb ha
    have hbj : bj < U32 := hvb bj (List.mem_cons_self _ _)
    have hvrest : wvalid rest := fun z hz => hvb z (List.mem_cons_of_mem _ hz)
    have heq : bmulInnerAux a_i k (bj :: rest) res =
        bmulInnerAux a_i (k + 1) rest
          (if bj = 0 then res else if k < res.length then mulAddAt res k a_i bj else res) :=
      rfl
    have hmid : wordsVal (if bj = 0 then res
          else if k < res.length then mulAddAt res k a_i bj else res) =
        (wordsVal res + a_i * bj * U32 ^ k) % U32 ^ res.length ∧
        wvalid (if bj = 0 then res
          else if k < res.length then mulAddAt res k a_i bj else res) ∧
        (if bj = 0 then res
          else if k < res.length then mulAddAt res k a_i bj else res).length = res.length := by
      by_cases h0 : bj = 0
      · rw [if_pos h0, h0, Nat.mul_zero, Nat.zero_mul, Nat.add_zero,
          Nat.mod_eq_of_lt (wordsVal_lt hv)]
        exact ⟨rfl, hv, rfl⟩
      · rw [if_neg h0]
        by_cases hkr : k < res.length
        · rw [if_pos hkr]
          exact mulAddAt_spec hv hkr ha hbj
        · rw [if_neg hkr]
          refine ⟨?_, hv, rfl⟩
          rw [show U32 ^ k = U32 ^ (k - res.length) * U32 ^ res.length by
            rw [← pow_add]; congr 1; omega]
          rw [← Nat.mul_assoc, Nat.add_mul_mod_self_right,
            Nat.mod_eq_of_lt (wordsVal_lt hv)]
    rcases hmid with ⟨hmv, hmw, hml⟩
    rcases ih (k + 1) (if bj = 0 then res
        else if k < res.length then mulAddAt res k a_i bj else res) a_i hmw hvrest ha with
      ⟨hval, hvr, hlr⟩
    rw [heq]
    refine ⟨?_, hvr, by rw [hlr, hml]⟩
    rw [hval, hml, hmv, Nat.mod_add_mod]
    congr 1
    rw [show wordsVal (bj :: rest) = bj + U32 * wordsVal rest from rfl]
    rw [show a_i * (bj + U32 * wordsVal rest) * U32 ^ k
        = a_i * bj * U32 ^ k + a_i * wordsVal rest * U32 ^ (k + 1) by
      rw [show U32 ^ (k + 1) = U32 ^ k * U32 from pow_succ U32 k]; ring]
    ring

/-- The outer loop of biguint::operator* accumulates
`value(as) * value(bs) * 2^(32 i)` into the result, modulo its width. -/
theorem bmulOuterAux_spec : ∀ (as : List Nat) (i : Nat) (bs res : List Nat),
    wvalid res → wvalid as → wvalid bs →
    wordsVal (bmulOuterAux i as bs res) =
      (wordsVal res + wordsVal as * wordsVal bs * U32 ^ i) % U32 ^ res.length ∧
    wvalid (bmulOuterAux i as bs res) ∧
    (bmulOuterAux i as bs res).length = res.length := by
  intro as
  induction as with
  | nil =>
    intro i bs res hv _ _
    refine ⟨?_, hv, rfl⟩
    rw [show wordsVal [] = 0 from rfl, Nat.zero_mul, Nat.zero_mul, Nat.add_zero,
      Nat.mod_eq_of_lt (wordsVal_lt hv)]
    rfl
  | cons ai rest ih =>
    intro i bs res hv hva hvb
    have hai : ai < U32 := hva ai (List.mem_cons_self _ _)
    have hvrest : wvalid rest := fun z hz => hva z (List.mem_cons_of_mem _ hz)
    have heq : bmulOuterAux i (ai :: rest) bs res =
        bmulOuterAux (i + 1) rest bs (if ai = 0 then res else bmulInnerAux ai i bs res) := rfl
    have hmid : wordsVal (if ai = 0 then res else bmulInnerAux ai i bs res) =
        (wordsVal res + ai * wordsVal bs * U32 ^ i) % U32 ^ res.length ∧
        wvalid (if ai = 0 then res else bmulInnerAux ai i bs res) ∧
        (if ai = 0 then res else bmulInnerAux ai i bs res).length = res.length := by
      by_cases h0 : ai = 0
      · rw [if_pos h0, h0, Nat.zero_mul, Nat.zero_mul, Nat.add_zero,
          Nat.mod_eq_of_lt (wordsVal_lt hv)]
        exact ⟨rfl, hv, rfl⟩
      · rw [if_neg h0]
        exact bmulInnerAux_spec bs i res ai hv hvb hai
    rcases hmid with ⟨hmv, hmw, hml⟩
    rcases ih (i + 1) bs (if ai = 0 then res else bmulInnerAux ai i bs res) hmw hvrest hvb with
      ⟨hval, hvr, hlr⟩
    rw [heq]
    refine ⟨?_, hvr, by rw [hlr, hml]⟩
    rw [hval, hml, hmv, Nat.mod_add_mod]
    congr 1
    rw [show wordsVal (ai :: rest) = ai + U32 * wordsVal rest from rfl]
    rw [show (ai + U32 * wordsVal rest) * wordsVal bs * U32 ^ i
        = ai * wordsVal bs * U32 ^ i + wordsVal rest * wordsVal bs * U32 ^ (i + 1) by
      rw [show U32 ^ (i + 1) = U32 ^ i * U32 from pow_succ U32 i]; ring]
    ring

/-- biguint::operator* computes the product of the operand values modulo
`2^(32 w)`, on valid words, preserving width and validity. -/
theorem bmul_spec {a b : List Nat} (hva : wvalid a) (hvb : wvalid b) :
    wordsVal (bmul a b) = wordsVal a * wordsVal b % U32 ^ a.length ∧
    wvalid (bmul a b) ∧ (bmul a b).length = a.length := by
  have hvz : wvalid (List.replicate a.length 0) := by
    intro x hx
    rw [List.eq_of_mem_replicate hx]
    exact u32_pos
  rcases bmulOuterAux_spec a 0 b (List.replicate a.length 0) hvz hva hvb with ⟨hval, hvr, hlr⟩
  rw [bmul]
  refine ⟨?_, hvr, by rw [hlr, List.length_replicate]⟩
  rw [hval, wordsVal_replicate_zero, List.length_replicate, Nat.zero_add, pow_zero,
    Nat.mul_one]

end Xu

namespace Xu

theorem bcompAux_self : ∀ u : List Nat, bcompAux u u = 0 := by
  intro u
  induction u with
  | nil => rfl
  | cons a as ih =>
    rw [bcompAux, if_neg (lt_irrefl a), if_neg (lt_irrefl a)]
    exact ih

theorem bcomp_self (l : List Nat) : bcomp l l = 0 := bcompAux_self l.reverse

/-- C9: biguint multiplication is commutative and associative modulo
2^(32 W): for same-width valid operands, a * b == b * a and
(a * b) * c == a * (b * c) under biguint::operator==, and the value of a
product is the product of the values modulo 2^(32 W). -/
theorem C9_mul_comm_assoc (a b c : List Nat) (hva : wvalid a) (hvb : wvalid b)
    (hvc : wvalid c) (hab : b.length = a.length) (hac : c.length = a.length) :
    beqB (bmul a b) (bmul b a) = true ∧
    beqB (bmul (bmul a b) c) (bmul a (bmul b c)) = true ∧
    wordsVal (bmul a b) = wordsVal a * wordsVal b % 2 ^ (32 * a.length) := by
  rcases bmul_spec hva hvb with ⟨hab_v, hab_w, hab_l⟩
  rcases bmul_spec hvb hva with ⟨hba_v, hba_w, hba_l⟩
  rcases bmul_spec hvb hvc with ⟨hbc_v, hbc_w, hbc_l⟩
  rcases bmul_spec hab_w hvc with ⟨habc_v, habc_w, habc_l⟩
  rcases bmul_spec hva hbc_w with ⟨habc_v', habc_w', habc_l'⟩
  have hcomm : bmul a b = bmul b a := by
    apply wordsVal_inj hab_w hba_w (by rw [hab_l, hba_l, hab])
    rw [hab_v, hba_v, hab, Nat.mul_comm]
  have hassoc : bmul (bmul a b) c = bmul a (bmul b c) := by
    apply wordsVal_inj habc_w habc_w' (by rw [habc_l, habc_l', hab_l])
    rw [habc_v, habc_v', hab_v, hbc_v, hab_l, hab]
    rw [Nat.mod_mul_mod, Nat.mul_mod_mod, Nat.mul_assoc]
  refine ⟨?_, ?_, ?_⟩
  · rw [hcomm, beqB, bcomp_self]
    rfl
  · rw [hassoc, beqB, bcomp_self]
    rfl
  · rw [hab_v]
    congr 1
    rw [show U32 = 2 ^ 32 from rfl, ← pow_mul]

/-- Concrete instantiation of C9 at width two. -/
theorem C9_witness :
    beqB (bmul [2, 3] [4, 5]) (bmul [4, 5] [2, 3]) = true ∧
    beqB (bmul (bmul [2, 3] [4, 5]) [6, 7]) (bmul [2, 3] (bmul [4, 5] [6, 7])) = true ∧
    wordsVal (bmul [2, 3] [4, 5]) =
      wordsVal [2, 3] * wordsVal [4, 5] % 2 ^ (32 * [2, 3].length) :=
  C9_mul_comm_assoc [2, 3] [4, 5] [6, 7] (by simp [wvalid, U32]) (by simp [wvalid, U32])
    (by simp [wvalid, U32]) rfl rfl

end Xu

namespace Xu

/-- Two's-complement subtraction computes exact subtraction when the
subtrahend is no larger. -/
theorem bsub_exact {a b : List Nat} (hl : a.length = b.length) (hw : 1 ≤ a.length)
    (hva : wvalid a) (hvb : wvalid b) (hle : wordsVal b ≤ wordsVal a) :
    wordsVal (bsub a b) = wordsVal a - wordsVal b := by
  rw [bsub_val hl hw hva hvb]
  have hva' := wordsVal_lt hva
  have hvb' := wordsVal_lt hvb
  rw [← hl] at hvb'
  rw [show wordsVal a + (U32 ^ a.length - wordsVal b)
      = (wordsVal a - wordsVal b) + 1 * U32 ^ a.length from by omega]
  rw [Nat.add_mul_mod_self_right, Nat.mod_eq_of_lt (by omega)]

theorem bsub_length {a b : List Nat} (hl : a.length = b.length) (hw : 1 ≤ a.length) :
    (bsub a b).length = a.length := by
  rw [bsub]
  exact badd_length (by
    rw [badd_length (by rw [bnot_length, ofU32_length (by omega)]), bnot_length, ← hl])

theorem bsub_valid (a b : List Nat) : wvalid (bsub a b) := badd_valid _ _

/-- An all-zero biguint has value zero. -/
theorem bisZero_true_val : ∀ {l : List Nat}, bisZero l = true → wordsVal l = 0 := by
  intro l
  induction l with
  | nil => intro _; rfl
  | cons x xs ih =>
    intro h
    rw [bisZero, List.all_cons, Bool.and_eq_true] at h
    rcases h with ⟨h1, h2⟩
    have hx : x = 0 := by simpa using h1
    rw [wordsVal, hx, ih h2]
    simp

theorem val_zero_bisZero : ∀ {l : List Nat}, wordsVal l = 0 → bisZero l = true := by
  intro l
  induction l with
  | nil => intro _; rfl
  | cons x xs ih =>
    intro h
    rw [wordsVal] at h
    have hx : x = 0 := by omega
    have hxs : wordsVal xs = 0 := by
      rcases Nat.mul_eq_zero.mp (show U32 * wordsVal xs = 0 by omega) with hU | hv
      · exact absurd hU (Nat.pos_iff_ne_zero.mp u32_pos)
      · exact hv
    rw [bisZero, List.all_cons, hx, Bool.and_eq_true]
    exact ⟨rfl, ih hxs⟩

/-- A biguint that is not all-zero has a positive value. -/
theorem bisZero_false_pos {l : List Nat} (h : bisZero l = false) : 0 < wordsVal l := by
  by_contra hc
  push_neg at hc
  have h0 : wordsVal l = 0 := by omega
  rw [val_zero_bisZero h0] at h
  cases h

/-- Splitting one binary digit off a quotient by a power of two. -/
theorem div_pow_succ_decomp (v k : Nat) :
    v / 2 ^ k = 2 * (v / 2 ^ (k + 1)) + v / 2 ^ k % 2 := by
  have h1 : v / 2 ^ (k + 1) = v / 2 ^ k / 2 := by
    rw [pow_succ, ← Nat.div_div_eq_div_mul]
  omega

/-- Arithmetic core of one binary long-division step: with X = 2 P + bit
and running remainder d = 2 (P mod vb) + bit, comparing and conditionally
subtracting the divisor yields the next quotient bit and remainder. -/
theorem longdiv_step (P X vb bit d : Nat) (hb : 0 < vb) (hbit : bit ≤ 1)
    (hX : X = 2 * P + bit) (hd : d = 2 * (P % vb) + bit) :
    (vb ≤ d → X / vb = 2 * (P / vb) + 1 ∧ X % vb = d - vb) ∧
    (d < vb → X / vb = 2 * (P / vb) ∧ X % vb = d) ∧ d < 2 * vb := by
  have hm : P % vb < vb := Nat.mod_lt P hb
  have hdm := Nat.div_add_mod P vb
  refine ⟨?_, ?_, by omega⟩
  · intro hle
    have hmul : vb * (2 * (P / vb) + 1) = 2 * (vb * (P / vb)) + vb := by ring
    have h1 : (d - vb) + vb * (2 * (P / vb) + 1) = X := by omega
    have h2 := (Nat.div_mod_unique hb).mpr ⟨h1, by omega⟩
    exact ⟨h2.1, h2.2⟩
  · intro hlt
    have hmul : vb * (2 * (P / vb)) = 2 * (vb * (P / vb)) := by ring
    have h1 : d + vb * (2 * (P / vb)) = X := by omega
    have h2 := (Nat.div_mod_unique hb).mpr ⟨h1, by omega⟩
    exact ⟨h2.1, h2.2⟩

end Xu

namespace Xu

/-- Pulling the next dividend bit into the running remainder:
`(dividend << 1) | bit` doubles the value and adds the bit, provided the
result fits the width. -/
theorem divStep_val {d : List Nat} (hv : wvalid d) (hw : 1 ≤ d.length) (bit : Nat)
    (hbit : bit ≤ 1) (hno : 2 * wordsVal d + bit < U32 ^ d.length) :
    wordsVal (bor (bshl d 1) (ofU32 d.length bit)) = 2 * wordsVal d + bit ∧
    wvalid (bor (bshl d 1) (ofU32 d.length bit)) ∧
    (bor (bshl d 1) (ofU32 d.length bit)).length = d.length := by
  cases d with
  | nil => simp at hw
  | cons x xs =>
    have hx : x < U32 := hv x (List.mem_cons_self _ _)
    have hvxs : wvalid xs := fun z hz => hv z (List.mem_cons_of_mem _ hz)
    have h32 : U32 = 4294967296 := rfl
    have heven : (x * 2) % U32 % 2 = 0 := by rw [h32]; omega
    have hbE : bshl1Aux 0 (x :: xs) = ((x * 2) % U32) :: bshl1Aux (x / 2 ^ 31) xs := by
      rw [bshl1Aux, lor_zero_right]
    rcases bshl1Aux_spec (x :: xs) 0 hv (by omega) with ⟨hval, hvr, hlr⟩
    rw [hbE] at hval hvr hlr
    rw [Nat.add_zero] at hval
    rw [bshl_one, bshl1, hbE]
    simp only [List.length_cons] at hlr
    have htl : (bshl1Aux (x / 2 ^ 31) xs).length = xs.length := by omega
    have hofl : (x :: xs).length = ((x * 2) % U32 :: bshl1Aux (x / 2 ^ 31) xs).length := by
      rw [List.length_cons, List.length_cons, htl]
    rw [hofl, bor_bit _ _ heven bit hbit]
    have hvtail : wvalid (bshl1Aux (x / 2 ^ 31) xs) :=
      fun z hz => hvr z (List.mem_cons_of_mem _ hz)
    have hvhead : (x * 2) % U32 < U32 := Nat.mod_lt _ u32_pos
    have hvalcons : (x * 2) % U32 + U32 * wordsVal (bshl1Aux (x / 2 ^ 31) xs) =
        (2 * wordsVal (x :: xs)) % U32 ^ (x :: xs).length := by
      rw [show wordsVal ((x * 2) % U32 :: bshl1Aux (x / 2 ^ 31) xs)
          = (x * 2) % U32 + U32 * wordsVal (bshl1Aux (x / 2 ^ 31) xs) from rfl] at hval
      exact hval
    refine ⟨?_, ?_, by simp [htl]⟩
    · rw [show wordsVal (((x * 2) % U32 + bit) :: bshl1Aux (x / 2 ^ 31) xs)
          = ((x * 2) % U32 + U32 * wordsVal (bshl1Aux (x / 2 ^ 31) xs)) + bit from by
        rw [show wordsVal (((x * 2) % U32 + bit) :: bshl1Aux (x / 2 ^ 31) xs)
            = (x * 2) % U32 + bit + U32 * wordsVal (bshl1Aux (x / 2 ^ 31) xs) from rfl]
        ring]
      rw [hvalcons, Nat.mod_eq_of_lt (by omega)]
    · intro z hz
      rcases List.mem_cons.mp hz with he | hm
      · rw [he, h32] at *
        omega
      · exact hvtail z hm

end Xu

namespace Xu

/-- Loop invariant of the binary long-division loop of biguint::operator/:
if on entry to iteration `at` the running remainder holds
`2 * ((value(a) >> (at+1)) mod value(b)) + bit_at(value(a))` and the
quotient-so-far holds `((value(a) >> (at+1)) div value(b)) << (at+1)`, the
loop returns the floor quotient `value(a) div value(b)`. -/
theorem bdivGo_spec (a b : List Nat) (hva : wvalid a) (hvb : wvalid b)
    (hl : b.length = a.length) (hw : 1 ≤ a.length) (hbpos : 0 < wordsVal b) :
    ∀ (at_ : Nat) (res dividend : List Nat),
    at_ < 32 * a.length → wvalid res → res.length = a.length →
    wvalid dividend → dividend.length = a.length →
    wordsVal dividend =
      2 * (wordsVal a / 2 ^ (at_ + 1) % wordsVal b) + wordsVal a / 2 ^ at_ % 2 →
    wordsVal res = wordsVal a / 2 ^ (at_ + 1) / wordsVal b * 2 ^ (at_ + 1) →
    wordsVal (bdivGo a b res dividend at_) = wordsVal a / wordsVal b ∧
    wvalid (bdivGo a b res dividend at_) ∧
    (bdivGo a b res dividend at_).length = a.length := by
  intro at_
  induction at_ with
  | zero =>
    intro res dividend hat hvr hrl hvd hdl hdiv hres
    have hbitle : wordsVal a / 2 ^ 0 % 2 ≤ 1 := by
      have := Nat.mod_lt (wordsVal a / 2 ^ 0) (show 0 < 2 by norm_num)
      omega
    have hX := div_pow_succ_decomp (wordsVal a) 0
    rcases longdiv_step (wordsVal a / 2 ^ (0 + 1)) (wordsVal a / 2 ^ 0) (wordsVal b)
        (wordsVal a / 2 ^ 0 % 2) (wordsVal dividend) hbpos hbitle hX hdiv with
      ⟨htrue, hfalse, hd2⟩
    have hresbit : wordsVal res / 2 ^ 0 % 2 = 0 := by
      rw [hres, show wordsVal a / 2 ^ (0 + 1) / wordsVal b * 2 ^ (0 + 1)
          = 2 * (wordsVal a / 2 ^ (0 + 1) / wordsVal b) * 2 ^ 0 from by
        rw [show (2:Nat) ^ (0 + 1) = 2 ^ 0 * 2 from pow_succ 2 0]; ring]
      rw [Nat.mul_div_cancel _ (Nat.pos_pow_of_pos 0 (by norm_num))]
      omega
    have h0lt : (0:Nat) < 32 * res.length := by rw [hrl]; omega
    by_cases hc : bleB b dividend = true
    · have hle : wordsVal b ≤ wordsVal dividend :=
        (bleB_iff hvb hvd (by rw [hl, hdl])).mp hc
      rcases setBit_one_val hvr h0lt hresbit with ⟨hsv, hsw, hsl⟩
      have heq : bdivGo a b res dividend 0 = setBit res 0 1 := by
        rw [show bdivGo a b res dividend 0 =
            (if bleB b dividend then (setBit res 0 1, bsub dividend b)
             else (setBit res 0 0, dividend)).1 from rfl]
        rw [if_pos hc]
      rw [heq]
      refine ⟨?_, hsw, by rw [hsl, hrl]⟩
      rw [hsv, hres]
      rcases htrue hle with ⟨hq, _⟩
      rw [pow_zero, Nat.div_one] at hq
      rw [pow_zero, hq, show (2:Nat) ^ (0 + 1) = 2 from rfl]
      ring
    · have hlt : wordsVal dividend < wordsVal b := by
        rcases Nat.lt_or_ge (wordsVal dividend) (wordsVal b) with h | h
        · exact h
        · exact absurd ((bleB_iff hvb hvd (by rw [hl, hdl])).mpr h) hc
      rcases setBit_zero_val hvr h0lt hresbit with ⟨hsv, hsw, hsl⟩
      have heq : bdivGo a b res dividend 0 = setBit res 0 0 := by
        rw [show bdivGo a b res dividend 0 =
            (if bleB b dividend then (setBit res 0 1, bsub dividend b)
             else (setBit res 0 0, dividend)).1 from rfl]
        rw [if_neg hc]
      rw [heq]
      refine ⟨?_, hsw, by rw [hsl, hrl]⟩
      rw [hsv, hres]
      rcases hfalse hlt with ⟨hq, _⟩
      rw [pow_zero, Nat.div_one] at hq
      rw [hq, show (2:Nat) ^ (0 + 1) = 2 from rfl]
      ring
  | succ k ih =>
    intro res dividend hat hvr hrl hvd hdl hdiv hres
    have hbitle : wordsVal a / 2 ^ (k + 1) % 2 ≤ 1 := by
      have := Nat.mod_lt (wordsVal a / 2 ^ (k + 1)) (show 0 < 2 by norm_num)
      omega
    have hX := div_pow_succ_decomp (wordsVal a) (k + 1)
    rcases longdiv_step (wordsVal a / 2 ^ (k + 1 + 1)) (wordsVal a / 2 ^ (k + 1))
        (wordsVal b) (wordsVal a / 2 ^ (k + 1) % 2) (wordsVal dividend) hbpos hbitle hX hdiv
      with ⟨htrue, hfalse, hd2⟩
    have hresbit : wordsVal res / 2 ^ (k + 1) % 2 = 0 := by
      rw [hres, show wordsVal a / 2 ^ (k + 1 + 1) / wordsVal b * 2 ^ (k + 1 + 1)
          = 2 * (wordsVal a / 2 ^ (k + 1 + 1) / wordsVal b) * 2 ^ (k + 1) from by
        rw [show (2:Nat) ^ (k + 1 + 1) = 2 ^ (k + 1) * 2 from pow_succ 2 (k + 1)]; ring]
      rw [Nat.mul_div_cancel _ (Nat.pos_pow_of_pos (k + 1) (by norm_num))]
      omega
    have hgb : getBit a k = wordsVal a / 2 ^ k % 2 := getBit_val hva k
    have hgble : getBit a k ≤ 1 := getBit_le_one a k
    have hXk := div_pow_succ_decomp (wordsVal a) k
    have hvaM : wordsVal a < U32 ^ a.length := wordsVal_lt hva
    by_cases hc : bleB b dividend = true
    · have hle : wordsVal b ≤ wordsVal dividend :=
        (bleB_iff hvb hvd (by rw [hl, hdl])).mp hc
      rcases htrue hle with ⟨hq, hr⟩
      rcases setBit_one_val hvr (by rw [hrl]; exact hat) hresbit with ⟨hsv, hsw, hsl⟩
      have hsubl : (bsub dividend b).length = a.length := by
        rw [bsub_length (by rw [hdl, hl]) (by rw [hdl]; exact hw)]
        exact hdl
      have hsubv : wordsVal (bsub dividend b) = wordsVal dividend - wordsVal b :=
        bsub_exact (by rw [hdl, hl]) (by rw [hdl]; exact hw) hvd hvb hle
      have hsubw : wvalid (bsub dividend b) := bsub_valid _ _
      have hnewv : wordsVal (bsub dividend b) = wordsVal a / 2 ^ (k + 1) % wordsVal b := by
        rw [hsubv, ← hr]
      have hno : 2 * wordsVal (bsub dividend b) + getBit a k
          < U32 ^ (bsub dividend b).length := by
        rw [hsubl, hnewv, hgb]
        have hmle := Nat.mod_le (wordsVal a / 2 ^ (k + 1)) (wordsVal b)
        have hdle := Nat.div_le_self (wordsVal a) (2 ^ k)
        omega
      rcases divStep_val hsubw (by rw [hsubl]; exact hw) (getBit a k) hgble hno with
        ⟨hdv, hdw, hdlen⟩
      rw [hsubl] at hdv hdw hdlen
      have heq : bdivGo a b res dividend (k + 1) =
          bdivGo a b (setBit res (k + 1) 1)
            (bor (bshl (bsub dividend b) 1) (ofU32 a.length (getBit a k))) k := by
        rw [show bdivGo a b res dividend (k + 1) = bdivGo a b
            (if bleB b dividend then (setBit res (k + 1) 1, bsub dividend b)
             else (setBit res (k + 1) 0, dividend)).1
            (bor (bshl (if bleB b dividend then (setBit res (k + 1) 1, bsub dividend b)
             else (setBit res (k + 1) 0, dividend)).2 1)
              (ofU32 a.length (getBit a k))) k from rfl]
        rw [if_pos hc]
      rw [heq]
      refine ih (setBit res (k + 1) 1)
        (bor (bshl (bsub dividend b) 1) (ofU32 a.length (getBit a k)))
        (by omega) hsw (by rw [hsl, hrl]) hdw hdlen ?_ ?_
      · rw [hdv, hnewv, hgb]
      · rw [hsv, hres, hq]
        rw [show (2:Nat) ^ (k + 1 + 1) = 2 ^ (k + 1) * 2 from pow_succ 2 (k + 1)]
        ring
    · have hlt : wordsVal dividend < wordsVal b := by
        rcases Nat.lt_or_ge (wordsVal dividend) (wordsVal b) with h | h
        · exact h
        · exact absurd ((bleB_iff hvb hvd (by rw [hl, hdl])).mpr h) hc
      rcases hfalse hlt with ⟨hq, hr⟩
      rcases setBit_zero_val hvr (by rw [hrl]; exact hat) hresbit with ⟨hsv, hsw, hsl⟩
      have hno : 2 * wordsVal dividend + getBit a k < U32 ^ dividend.length := by
        rw [hdl, ← hr, hgb]
        have hmle := Nat.mod_le (wordsVal a / 2 ^ (k + 1)) (wordsVal b)
        have hdle := Nat.div_le_self (wordsVal a) (2 ^ k)
        omega
      rcases divStep_val hvd (by rw [hdl]; exact hw) (getBit a k) hgble hno with
        ⟨hdv, hdw, hdlen⟩
      rw [hdl] at hdv hdw hdlen
      have heq : bdivGo a b res dividend (k + 1) =
          bdivGo a b (setBit res (k + 1) 0)
            (bor (bshl dividend 1) (ofU32 a.length (getBit a k))) k := by
        rw [show bdivGo a b res dividend (k + 1) = bdivGo a b
            (if bleB b dividend then (setBit res (k + 1) 1, bsub dividend b)
             else (setBit res (k + 1) 0, dividend)).1
            (bor (bshl (if bleB b dividend then (setBit res (k + 1) 1, bsub dividend b)
             else (setBit res (k + 1) 0, dividend)).2 1)
              (ofU32 a.length (getBit a k))) k from rfl]
        rw [if_neg hc]
      rw [heq]
      refine ih (setBit res (k + 1) 0)
        (bor (bshl dividend 1) (ofU32 a.length (getBit a k)))
        (by omega) hsw (by rw [hsl, hrl]) hdw hdlen ?_ ?_
      · rw [hdv, ← hr, hgb]
      · rw [hsv, hres, hq]
        rw [show (2:Nat) ^ (k + 1 + 1) = 2 ^ (k + 1) * 2 from pow_succ 2 (k + 1)]
        ring

end Xu

namespace Xu

/-- C4: for every biguint a and nonzero b of the same width,
biguint::operator/ succeeds and returns the truncated quotient:
value(a / b) = floor(value(a) / value(b)). -/
theorem C4_divide_floor (a b : List Nat) (hva : wvalid a) (hvb : wvalid b)
    (hl : b.length = a.length) (hw : 1 ≤ a.length) (hnz : bisZero b = false) :
    ∃ q : List Nat, bdiv a b = Except.ok q ∧ wordsVal q = wordsVal a / wordsVal b := by
  have hbpos := bisZero_false_pos hnz
  have hW32 : WORD_SIZE = 32 := rfl
  have hvaM : wordsVal a < 2 ^ (32 * a.length) := by
    have h1 := wordsVal_lt hva
    rw [show U32 = 2 ^ 32 from rfl, ← pow_mul] at h1
    exact h1
  have hzero : wordsVal a / 2 ^ (a.length * WORD_SIZE - 1 + 1) = 0 := by
    apply Nat.div_eq_of_lt
    rw [show a.length * WORD_SIZE - 1 + 1 = 32 * a.length from by rw [hW32]; omega]
    exact hvaM
  have hgb := getBit_val hva (a.length * WORD_SIZE - 1)
  have hgble := getBit_le_one a (a.length * WORD_SIZE - 1)
  have hvz : wvalid (List.replicate a.length 0) := fun x hx => by
    rw [List.eq_of_mem_replicate hx]
    exact u32_pos
  have hdv : wordsVal (ofU32 a.length (getBit a (a.length * WORD_SIZE - 1)))
      = getBit a (a.length * WORD_SIZE - 1) := ofU32_val _ _
  have hdw : wvalid (ofU32 a.length (getBit a (a.length * WORD_SIZE - 1))) :=
    ofU32_valid (by have := two_lt_u32; omega)
  rcases bdivGo_spec a b hva hvb hl hw hbpos (a.length * WORD_SIZE - 1)
      (List.replicate a.length 0) (ofU32 a.length (getBit a (a.length * WORD_SIZE - 1)))
      (by rw [hW32]; omega) hvz (List.length_replicate _ _) hdw (ofU32_length hw _)
      (by rw [hdv, hgb, hzero, Nat.zero_mod, Nat.mul_zero, Nat.zero_add])
      (by rw [wordsVal_replicate_zero, hzero, Nat.zero_div, Nat.zero_mul]) with
    ⟨hqval, hqw, hql⟩
  refine ⟨_, ?_, hqval⟩
  rw [bdiv, if_neg (by rw [hnz]; exact Bool.false_ne_true)]

/-- Concrete instantiation of C4: 7 / 2 computed by the long-division loop
equals the truncated quotient 3. -/
theorem C4_witness : ∃ q : List Nat, bdiv [7] [2] = Except.ok q ∧
    wordsVal q = wordsVal [7] / wordsVal [2] :=
  C4_divide_floor [7] [2] (by simp [wvalid, U32]) (by simp [wvalid, U32]) rfl
    (by norm_num) rfl

end Xu
